import Mathlib

/-!
Verification development for the tempeh-parser streaming HTML parser.

The definitions below are a shallow embedding of the JavaScript sources:
`src/lexerUtils.js` (character classifiers), `src/lexer.js` (the byte-level
lexer state machine, including BOM handling and the decoder with one-slot
pushback), `src/parseTemplate.js` (the tree builder `parseChildNodes`) and
`src/HTMLParser.js` (the `HTMLParseResult` facade with `toArray`).

Bytes and codepoints are `Nat`; line/column counters are `Int` (JS numbers;
one emitted column is computed by subtraction and can go negative).  The
lexer is driven with explicit fuel; every claim about emitted tokens is
quantified over arbitrary fuel, and concrete scenarios use ample fuel.
-/

namespace Tempeh

/-! Character classifiers, translated from `src/lexerUtils.js`. -/

def isLetter (c : Nat) : Bool :=
  (97 ≤ c && c ≤ 122) || (65 ≤ c && c ≤ 90)

def isLineBreak (c : Nat) : Bool :=
  10 ≤ c && c ≤ 13

def isWhitespace (c : Nat) : Bool :=
  c == 32 || (9 ≤ c && c ≤ 13)

def isLegalLeadingTagNameChar (c : Nat) : Bool :=
  isLetter c || c == 95

def isNumber (c : Nat) : Bool :=
  49 ≤ c && c ≤ 57

def isLegalTagNameSpecialChar (c : Nat) : Bool :=
  c == 45 || c == 46 || c == 58 || c == 95

def pcenCharRanges : List (Nat × Nat) :=
  [(0xc0, 0xd6), (0xd8, 0xf6), (0xf8, 0x37d), (0x37f, 0x1fff),
   (0x200c, 0x200d), (0x203f, 0x2040), (0x2070, 0x218f), (0x2c00, 0x2fef),
   (0x3001, 0xd7ff), (0xf900, 0xfdcf), (0xfdf0, 0xfffd), (0x10000, 0xeffff)]

def isPCENChar (c : Nat) : Bool :=
  pcenCharRanges.any (fun r => r.1 ≤ c && c ≤ r.2)

def isLegalTagNameChar (c : Nat) : Bool :=
  isLegalTagNameSpecialChar c || isLetter c || isNumber c || isPCENChar c

def isScriptQuoteChar (c : Nat) : Bool :=
  c == 39 || c == 34 || c == 96

def isStyleQuoteChar (c : Nat) : Bool :=
  c == 39 || c == 34

def isAttributeValueQuoteChar (c : Nat) : Bool :=
  c == 39 || c == 34

def rawTextContentTagnames : List String :=
  ["script", "style", "textarea", "title"]

def isRawTextContentElementTagname (t : String) : Bool :=
  rawTextContentTagnames.contains t

def voidTagnames : List String :=
  ["area", "base", "br", "col", "embed", "hr", "img", "input", "link",
   "meta", "param", "source", "track", "wbr"]

def isVoidElementTagname (t : String) : Bool :=
  voidTagnames.contains t

def isLegalAttributeNameChar (c : Nat) : Bool :=
  !(c == 61 || c == 62 || c == 47 || isWhitespace c || isAttributeValueQuoteChar c)

def isLegalUnquotedAttributeValueChar (c : Nat) : Bool :=
  !(isWhitespace c || isAttributeValueQuoteChar c || c == 62 || c == 60)

/-- The codepoints of the string "<!DOCTYPE". -/
def docTypeCodes : List Nat := [60, 33, 68, 79, 67, 84, 89, 80, 69]

/-- JS `doCharCodesMatchDocType`, applied by the lexer to `slice(-9)` of the
text buffer (a list of exactly nine codes at every call site). -/
def doCharCodesMatchDocType (l : List Nat) : Bool :=
  l == docTypeCodes

/-! Tokens, mirroring the `LexerTokenType` enum of `src/lexer.js`. -/

inductive TokType where
  | eof
  | error
  | textContent
  | openingTagname
  | closingTagname
  | openingTagEnd
  | voidTagEnd
  | selfClosingTagEnd
  | attributeName
  | attributeValue
  | comment
  | doctypeDeclaration
deriving DecidableEq, Repr

/-- A lexer token: type, value (empty for the valueless variants), line and
column.  Line/column are `Int` because they are JS numbers and one emitted
column is produced by subtraction. -/
structure Tok where
  type : TokType
  value : String
  l : Int
  c : Int
deriving DecidableEq, Repr

/-- Converts a buffered list of codepoints to a string, as the lexer's
`String.fromCodePoint(...codes)` does. -/
def cpsToString (l : List Nat) : String :=
  String.mk (l.map Char.ofNat)

/-- The ECMAScript WhiteSpace/LineTerminator set used by `String.prototype.trim`. -/
def isJsTrimWhitespace (c : Nat) : Bool :=
  (9 ≤ c && c ≤ 13) || c == 32 || c == 0xa0 || c == 0x1680 ||
  (0x2000 ≤ c && c ≤ 0x200a) || c == 0x2028 || c == 0x2029 ||
  c == 0x202f || c == 0x205f || c == 0x3000 || c == 0xfeff

/-- JS `.trim()` on a codepoint buffer. -/
def jsTrimCodes (l : List Nat) : List Nat :=
  ((l.dropWhile isJsTrimWhitespace).reverse.dropWhile isJsTrimWhitespace).reverse

/-! The decoder / character puller of `src/lexer.js` (`readNextChar`,
`pullChar`, `unreadChar`).  `wide = true` models the UTF-16/UTF-32 modes in
which `readBufferedCharBytes` returns a whole code unit; `wide = false` is
the UTF-8 mode with multi-byte sequence handling. -/

structure LexSrc where
  wide : Bool
  input : List Nat
  hasUnread : Bool
  lastRead : Option Nat
  line : Int
  col : Int
  lastLine : Int
  lastCol : Int
deriving DecidableEq, Repr

/-- `readNextChar` on the in-memory unit list.  The JS source returns
`readBufferedCharBytes(readOffset) || null`, so a unit equal to 0 is
coerced to `null` (end of input) after the read offset has advanced. -/
def readNext : List Nat → Option Nat × List Nat
  | [] => (none, [])
  | b :: r => (if b == 0 then none else some b, r)

inductive Decoded where
  | eofD
  | errD (msg : String)
  | okD (cp : Nat)
deriving DecidableEq, Repr

/-- One codepoint read, following the branching of `pullChar` on
`leadingCharByte` (UTF-8 sequence lengths; wide modes pass units through). -/
def decodeNext (wide : Bool) (input : List Nat) : Decoded × List Nat :=
  match readNext input with
  | (none, r) => (.eofD, r)
  | (some b, r) =>
    if wide then (.okD b, r)
    else if b < 0x80 then (.okD b, r)
    else if 0xc0 ≤ b && b ≤ 0xdf then
      match readNext r with
      | (none, r2) => (.eofD, r2)
      | (some b2, r2) => (.okD (((b &&& 0x1f) <<< 6) ||| (b2 &&& 0x3f)), r2)
    else if 0xe0 ≤ b && b ≤ 0xef then
      let p2 := readNext r
      let p3 := readNext p2.2
      match p2.1, p3.1 with
      | some x2, some x3 =>
        (.okD (((b &&& 0x0f) <<< 12) ||| ((x2 &&& 0x3f) <<< 6) ||| (x3 &&& 0x3f)), p3.2)
      | _, _ => (.eofD, p3.2)
    else if 0xf0 ≤ b && b ≤ 0xf7 then
      let p2 := readNext r
      let p3 := readNext p2.2
      let p4 := readNext p3.2
      match p2.1, p3.1, p4.1 with
      | some x2, some x3, some x4 =>
        (.okD (((b &&& 0x07) <<< 18) ||| ((x2 &&& 0x3f) <<< 12) |||
               ((x3 &&& 0x3f) <<< 6) ||| (x4 &&& 0x3f)), p4.2)
      | _, _, _ => (.eofD, p4.2)
    else (.errD ("Invalid UTF-8 leading byte: " ++ toString b), r)

inductive PullR where
  | char (cp : Nat) (l c : Int)
  | term (t : Tok)
deriving DecidableEq, Repr

/-- The tail of `pullChar`: record last-read bookkeeping, then update the
line/column counters (line break resets column to 0 and reports column 1;
otherwise the column is pre-incremented). -/
def pullFinish (cp : Nat) (s : LexSrc) : PullR × LexSrc :=
  let s1 := { s with lastLine := s.line, lastCol := s.col, lastRead := some cp }
  if isLineBreak cp then
    (.char cp (s.line + 1) 1, { s1 with line := s.line + 1, col := 0 })
  else
    (.char cp s.line (s.col + 1), { s1 with col := s.col + 1 })

/-- The read-and-decode path of `pullChar` (no pushback pending). -/
def pullRead (s : LexSrc) : PullR × LexSrc :=
  match decodeNext s.wide s.input with
  | (.eofD, r) => (.term ⟨.eof, "", s.line, s.col⟩, { s with input := r })
  | (.errD m, r) => (.term ⟨.error, m, s.line, s.col⟩, { s with input := r })
  | (.okD cp, r) => pullFinish cp { s with input := r }

/-- `pullChar`: reuse the unread character when
`hasUnreadLastChar && lastReadCharCode !== null`, else read a fresh one. -/
def pullChar (s : LexSrc) : PullR × LexSrc :=
  match s.lastRead with
  | some cp =>
    if s.hasUnread then pullFinish cp { s with hasUnread := false }
    else pullRead s
  | none => pullRead s

/-- `unreadChar`: single-slot pushback reverting the position counters; a
second unread without an intervening pull yields an ERROR token. -/
def unreadChar (s : LexSrc) : Option Tok × LexSrc :=
  if !s.hasUnread then
    (none, { s with line := s.lastLine, col := s.lastCol, hasUnread := true })
  else
    (some ⟨.error, "Cannot unread a character that has not been read", s.line, s.col⟩, s)

/-! The lexer state machine.  Each JS state function's loop is flattened to
one state constructor holding its local variables; `lexStep` performs one
loop iteration (one `pullChar`, plus the second pull of
`lexOpeningTagAttribute` after an `=`). -/

inductive LexState where
  | text (start : Option (Int × Int)) (prev : Option (Int × Int)) (buf : List Nat)
  | openName (start : Option (Int × Int)) (buf : List Nat)
  | openAttrs (tag : List Nat) (prev : Option Nat)
  | attrName (tag : List Nat) (ret : Nat) (start : Option (Int × Int)) (buf : List Nat)
  | afterAttrName (tag : List Nat) (ret : Nat)
  | quotedVal (tag : List Nat) (ret : Nat) (q : Option (Nat × Int × Int))
      (esc : Bool) (buf : List Nat)
  | unquotedVal (tag : List Nat) (ret : Nat) (start : Option (Int × Int)) (buf : List Nat)
  | closeName (start : Option (Int × Int)) (buf : List Nat)
  | closeEnd
  | commentSt (start : Option (Int × Int)) (buf : List Nat)
  | rawSt (tag : List Nat) (start : Option (Int × Int)) (q : Option Nat)
      (esc : Bool) (buf : List Nat)
  | doctypeSt (sl sc : Int) (buf : List Nat)
deriving DecidableEq, Repr

inductive TagNameCasing where
  | lower
  | upper
  | preserve
deriving DecidableEq, Repr

structure HTMLParserOptions where
  tagNameCasing : TagNameCasing
  ignoreSelfClosingSyntax : Bool
deriving DecidableEq, Repr

def defaultOptions : HTMLParserOptions := ⟨.lower, false⟩

/-- The last `n` elements of a buffer (JS `slice(-n)` for `n ≤ length`). -/
def lastN (n : Nat) (l : List Nat) : List Nat :=
  l.drop (l.length - n)

/-- The buffer with its last `n` elements removed (JS `length -= n`). -/
def dropLastN (n : Nat) (l : List Nat) : List Nat :=
  l.take (l.length - n)

/-- The JS pattern `if (!startLine || !startColumn) { startLine = ...; }`:
returns the effective start position given the current pull position. -/
def updStartP (st : Option (Int × Int)) (l c : Int) : Int × Int :=
  match st with
  | none => (l, c)
  | some (a, b) => if a == 0 || b == 0 then (l, c) else (a, b)

/-- One iteration of the lexer state machine.  Returns the emitted tokens,
the source after this iteration's pulls, and the continuation state
(`none` when the state machine halts). -/
def lexStep (opts : HTMLParserOptions) :
    LexState → LexSrc → List Tok × LexSrc × Option LexState
  | .text start prev buf, s =>
    match pullChar s with
    | (.term t, s1) =>
      let p := updStartP start t.l t.c
      if t.type == TokType.eof then
        ([⟨.textContent, cpsToString buf, p.1, p.2⟩, t], s1, none)
      else
        ([t], s1, none)
    | (.char cp l c, s1) =>
      let p := updStartP start l c
      if isLegalLeadingTagNameChar cp then
        if decide (buf.length > 0) && (buf.getLast? == some 60) then
          match unreadChar s1 with
          | (some e, s2) => ([e], s2, none)
          | (none, s2) =>
            ([⟨.textContent, cpsToString (dropLastN 1 buf), p.1, p.2⟩],
             s2, some (.openName none []))
        else if decide (buf.length ≥ 2) && (lastN 2 buf == [60, 47]) then
          match unreadChar s1 with
          | (some e, s2) => ([e], s2, none)
          | (none, s2) =>
            ([⟨.textContent, cpsToString (dropLastN 2 buf), p.1, p.2⟩],
             s2, some (.closeName none []))
        else
          ([], s1, some (.text (some p) (some (l, c)) (buf ++ [cp])))
      else if cp == 45 then
        if decide (buf.length ≥ 3) && (lastN 3 buf == [60, 33, 45]) then
          ([⟨.textContent, cpsToString (dropLastN 3 buf), p.1, p.2⟩],
           s1, some (.commentSt none []))
        else
          ([], s1, some (.text (some p) (some (l, c)) (buf ++ [cp])))
      else if isWhitespace cp then
        if decide (buf.length ≥ 9) && doCharCodesMatchDocType (lastN 9 buf) then
          let dl := match prev with | some pr => pr.1 | none => 1
          let dc := (match prev with | some pr => pr.2 | none => 9) - 8
          ([⟨.textContent, cpsToString (dropLastN 9 buf), p.1, p.2⟩],
           s1, some (.doctypeSt dl dc []))
        else
          ([], s1, some (.text (some p) (some (l, c)) (buf ++ [cp])))
      else
        ([], s1, some (.text (some p) (some (l, c)) (buf ++ [cp])))
  | .openName start buf, s =>
    match pullChar s with
    | (.term t, s1) => ([t], s1, none)
    | (.char cp l c, s1) =>
      let p := updStartP start l c
      if isLegalTagNameChar cp then
        ([], s1, some (.openName (some p) (buf ++ [cp])))
      else
        match unreadChar s1 with
        | (some e, s2) => ([e], s2, none)
        | (none, s2) =>
          ([⟨.openingTagname, cpsToString buf, p.1, p.2⟩],
           s2, some (.openAttrs buf none))
  | .openAttrs tag prev, s =>
    match pullChar s with
    | (.term t, s1) => ([t], s1, none)
    | (.char cp l c, s1) =>
      if !isWhitespace cp then
        if cp == 62 then
          let tn := cpsToString tag
          if isVoidElementTagname tn ||
             (!opts.ignoreSelfClosingSyntax && prev == some 47) then
            ([⟨.selfClosingTagEnd, "", l, c⟩], s1, some (.text none none []))
          else if isRawTextContentElementTagname tn then
            ([⟨.openingTagEnd, "", l, c⟩], s1, some (.rawSt tag none none false []))
          else
            ([⟨.openingTagEnd, "", l, c⟩], s1, some (.text none none []))
        else if isLegalAttributeNameChar cp then
          match unreadChar s1 with
          | (some e, s2) => ([e], s2, none)
          | (none, s2) => ([], s2, some (.attrName tag cp none []))
        else
          ([], s1, some (.openAttrs tag (some cp)))
      else
        ([], s1, some (.openAttrs tag (some cp)))
  | .attrName tag ret start buf, s =>
    match pullChar s with
    | (.term t, s1) => ([t], s1, none)
    | (.char cp l c, s1) =>
      let p := updStartP start l c
      if !isLegalAttributeNameChar cp then
        match unreadChar s1 with
        | (some e, s2) => ([e], s2, none)
        | (none, s2) =>
          ([⟨.attributeName, cpsToString buf, p.1, p.2⟩],
           s2, some (.afterAttrName tag ret))
      else
        ([], s1, some (.attrName tag ret (some p) (buf ++ [cp])))
  | .afterAttrName tag ret, s =>
    match pullChar s with
    | (.term t, s1) => ([t], s1, none)
    | (.char cp _ _, s1) =>
      if cp == 61 then
        match pullChar s1 with
        | (.term t2, s2) => ([t2], s2, none)
        | (.char cp2 _ _, s2) =>
          match unreadChar s2 with
          | (some e, s3) => ([e], s3, none)
          | (none, s3) =>
            if isAttributeValueQuoteChar cp2 then
              ([], s3, some (.quotedVal tag ret none false []))
            else if isLegalUnquotedAttributeValueChar cp2 then
              ([], s3, some (.unquotedVal tag ret none []))
            else
              ([], s3, some (.openAttrs tag (some ret)))
      else
        match unreadChar s1 with
        | (some e, s2) => ([e], s2, none)
        | (none, s2) => ([], s2, some (.openAttrs tag (some ret)))
  | .quotedVal tag ret q esc buf, s =>
    match pullChar s with
    | (.term t, s1) => ([t], s1, none)
    | (.char cp l c, s1) =>
      let needQ := match q with
        | none => true
        | some (qc, a, b) => a == 0 || b == 0 || qc == 0
      if needQ then
        ([], s1, some (.quotedVal tag ret (some (cp, l, c)) esc buf))
      else
        match q with
        | some (qc, sl, sc) =>
          if cp == 92 && !esc then
            ([], s1, some (.quotedVal tag ret q true buf))
          else if cp == qc && !esc then
            match unreadChar s1 with
            | (some e, s2) => ([e], s2, none)
            | (none, s2) =>
              ([⟨.attributeValue, cpsToString buf, sl, sc⟩],
               s2, some (.openAttrs tag (some ret)))
          else
            ([], s1, some (.quotedVal tag ret q false (buf ++ [cp])))
        | none => ([], s1, none)
  | .unquotedVal tag ret start buf, s =>
    match pullChar s with
    | (.term t, s1) => ([t], s1, none)
    | (.char cp l c, s1) =>
      let p := updStartP start l c
      if !isLegalUnquotedAttributeValueChar cp then
        match unreadChar s1 with
        | (some e, s2) => ([e], s2, none)
        | (none, s2) =>
          ([⟨.attributeValue, cpsToString buf, p.1, p.2⟩],
           s2, some (.openAttrs tag (some ret)))
      else
        ([], s1, some (.unquotedVal tag ret (some p) (buf ++ [cp])))
  | .closeName start buf, s =>
    match pullChar s with
    | (.term t, s1) => ([t], s1, none)
    | (.char cp l c, s1) =>
      let p := updStartP start l c
      if !isLegalTagNameChar cp then
        match unreadChar s1 with
        | (some e, s2) => ([e], s2, none)
        | (none, s2) =>
          ([⟨.closingTagname, cpsToString buf, p.1, p.2⟩], s2, some .closeEnd)
      else
        ([], s1, some (.closeName (some p) (buf ++ [cp])))
  | .closeEnd, s =>
    match pullChar s with
    | (.term t, s1) => ([t], s1, none)
    | (.char cp _ _, s1) =>
      if cp == 62 then ([], s1, some (.text none none []))
      else ([], s1, some .closeEnd)
  | .commentSt start buf, s =>
    match pullChar s with
    | (.term t, s1) => ([t], s1, none)
    | (.char cp l c, s1) =>
      let p := updStartP start l c
      if cp == 62 && decide (buf.length ≥ 2) && (lastN 2 buf == [45, 45]) then
        ([⟨.comment, cpsToString (jsTrimCodes (dropLastN 2 buf)), p.1, p.2⟩],
         s1, some (.text none none []))
      else
        ([], s1, some (.commentSt (some p) (buf ++ [cp])))
  | .rawSt tag start q esc buf, s =>
    match pullChar s with
    | (.term t, s1) => ([t], s1, none)
    | (.char cp l c, s1) =>
      let p := updStartP start l c
      let tn := cpsToString tag
      let matchStr : List Nat := 60 :: 47 :: tag
      match q with
      | some qc =>
        if cp == 92 && !esc then
          ([], s1, some (.rawSt tag (some p) q true (buf ++ [cp])))
        else if cp == qc && !esc then
          ([], s1, some (.rawSt tag (some p) none false (buf ++ [cp])))
        else
          ([], s1, some (.rawSt tag (some p) q false (buf ++ [cp])))
      | none =>
        if (tn == "script" && isScriptQuoteChar cp) ||
           (tn == "style" && isStyleQuoteChar cp) then
          ([], s1, some (.rawSt tag (some p) (some cp) esc (buf ++ [cp])))
        else if !isLegalTagNameChar cp && decide (buf.length ≥ matchStr.length) &&
                (lastN matchStr.length buf == matchStr) then
          match unreadChar s1 with
          | (some e, s2) => ([e], s2, none)
          | (none, s2) =>
            ([⟨.textContent, cpsToString (dropLastN matchStr.length buf), p.1, p.2⟩,
              ⟨.closingTagname, tn, l, c - (matchStr.length : Int)⟩],
             s2, some .closeEnd)
        else
          ([], s1, some (.rawSt tag (some p) none esc (buf ++ [cp])))
  | .doctypeSt sl sc buf, s =>
    match pullChar s with
    | (.term t, s1) => ([t], s1, none)
    | (.char cp _ _, s1) =>
      if cp == 62 then
        ([⟨.doctypeDeclaration, cpsToString (jsTrimCodes buf), sl, sc⟩],
         s1, some (.text none none []))
      else
        ([], s1, some (.doctypeSt sl sc (buf ++ [cp])))

/-- The lexer driver: iterate `lexStep` until the machine halts or the fuel
runs out.  Returns the emitted tokens and the final source. -/
def lexRun (opts : HTMLParserOptions) : Nat → LexState → LexSrc → List Tok × LexSrc
  | 0, _, s => ([], s)
  | Nat.succ f, st, s =>
    match lexStep opts st s with
    | (toks, s1, none) => (toks, s1)
    | (toks, s1, some st1) =>
      let r := lexRun opts f st1 s1
      (toks ++ r.1, r.2)

/-- The initial source: `line = 1`, `column = 0`, no pushback. -/
def initSrc (wide : Bool) (input : List Nat) : LexSrc :=
  ⟨wide, input, false, none, 1, 0, 1, 0⟩

/-- Lexes an in-memory byte list (the `rawHTMLString` source, after UTF-8
encoding) with ample fuel. -/
def lexBytes (opts : HTMLParserOptions) (bytes : List Nat) : List Tok × LexSrc :=
  lexRun opts (4 * bytes.length + 64) (.text none none []) (initSrc false bytes)

/-- The codepoints of an ASCII string, used to supply concrete inputs whose
UTF-8 bytes coincide with their codepoints. -/
def asciiBytes (s : String) : List Nat :=
  s.toList.map Char.toNat

/-! File-source handling from `lex`: the initial read inspects the first
four bytes for a byte-order mark only when at least four bytes were read;
otherwise the input is decoded as UTF-8 with no skip. -/

/-- Recombine bytes into 16-bit units (`getUint16`, little/big endian). -/
def unitize2 (le : Bool) : List Nat → List Nat
  | b0 :: b1 :: r => (if le then b1 * 256 + b0 else b0 * 256 + b1) :: unitize2 le r
  | _ => []

/-- Recombine bytes into 32-bit units (`getUint32`, little/big endian). -/
def unitize4 (le : Bool) : List Nat → List Nat
  | b0 :: b1 :: b2 :: b3 :: r =>
    (if le then ((b3 * 256 + b2) * 256 + b1) * 256 + b0
     else ((b0 * 256 + b1) * 256 + b2) * 256 + b3) :: unitize4 le r
  | _ => []

/-- BOM detection of `lex` for a file source: returns the wide-mode flag and
the unit list the character reads then see. -/
def fileUnits (bytes : List Nat) : Bool × List Nat :=
  match bytes with
  | b0 :: b1 :: b2 :: b3 :: _ =>
    if b0 == 0xef && b1 == 0xbb && b2 == 0xbf then
      (false, bytes.drop 3)
    else if b0 == 0xfe && b1 == 0xff then
      (true, unitize2 false (bytes.drop 2))
    else if b0 == 0xff && b1 == 0xfe then
      if b2 == 0 && b3 == 0 then (true, unitize4 true (bytes.drop 4))
      else (true, unitize2 true (bytes.drop 2))
    else if b0 == 0 && b1 == 0 && b2 == 0xfe && b3 == 0xff then
      (true, unitize4 false (bytes.drop 4))
    else (false, bytes)
  | _ => (false, bytes)

/-- Lexes a file source given its raw bytes. -/
def lexFileBytes (opts : HTMLParserOptions) (bytes : List Nat) : List Tok × LexSrc :=
  let u := fileUnits bytes
  lexRun opts (4 * u.2.length + 64) (.text none none []) (initSrc u.1 u.2)

/-! The tree builder, translated from `parseChildNodes` in
`src/parseTemplate.js`.  The streamed element's lazy child stream is
materialized as the list of nodes the recursive call writes to it; the
`hasBody` flag records whether a `childStream` was attached at all. -/

structure PAttr where
  name : String
  value : String
  l : Int
  c : Int
deriving DecidableEq, Repr

inductive PNode where
  | element (tagName : String) (attrs : List PAttr) (hasBody : Bool)
      (children : List PNode) (l c : Int)
  | text (s : String) (l c : Int)
  | doctype (s : String) (l c : Int)
  | comment (s : String) (l c : Int)

/-- ASCII lower-casing of one character.  The JS source uses
`String.prototype.toLowerCase`, whose Unicode mapping agrees with this on
the ASCII range. -/
def asciiLowerChar (c : Char) : Char :=
  if 65 ≤ c.toNat && c.toNat ≤ 90 then Char.ofNat (c.toNat + 32) else c

/-- ASCII upper-casing of one character (`String.prototype.toUpperCase` on
the ASCII range). -/
def asciiUpperChar (c : Char) : Char :=
  if 97 ≤ c.toNat && c.toNat ≤ 122 then Char.ofNat (c.toNat - 32) else c

def jsToLower (s : String) : String :=
  String.mk (s.toList.map asciiLowerChar)

def jsToUpper (s : String) : String :=
  String.mk (s.toList.map asciiUpperChar)

/-- The tagname casing transform applied by the builder. -/
def applyCasing (opts : HTMLParserOptions) (s : String) : String :=
  match opts.tagNameCasing with
  | .lower => jsToLower s
  | .upper => jsToUpper s
  | .preserve => s

/-- `elementNode.attributes.at(-1).value = ...` on an attribute list. -/
def setLastAttrValue (attrs : List PAttr) (v : String) : List PAttr :=
  match attrs with
  | [] => []
  | [a] => [{ a with value := v }]
  | a :: rest => a :: setLastAttrValue rest v

/-- Result of one `parseChildNodes` call: the nodes written to the given
writer, the unconsumed tokens, the returned closing tagname (`none` models
the JS `null` return), and whether the writer survived (`ok = false` models
an abort of this level's writer). -/
structure BResult where
  nodes : List PNode
  rest : List Tok
  closing : Option String
  ok : Bool

/-- Result of the inner opening-tag token loop for one element. -/
inductive OpenRes where
  | closed (e : PNode) (rest : List Tok)
  | finished (written : List PNode) (rest : List Tok) (closing : Option String) (ok : Bool)

mutual

/-- `parseChildNodes`: consumes tokens, writing nodes for this nesting
level, until EOF, an error, a matching closing tag, or the end of the
token stream. -/
def parseNodes (opts : HTMLParserOptions) :
    Nat → List Tok → List String → BResult
  | 0, toks, _ => ⟨[], toks, none, true⟩
  | Nat.succ _, [], _ => ⟨[], [], none, true⟩
  | Nat.succ f, t :: rest, parents =>
    match t.type with
    | .eof => ⟨[], rest, none, true⟩
    | .error => ⟨[], rest, none, false⟩
    | .textContent =>
      if t.value == "" then parseNodes opts f rest parents
      else
        let r := parseNodes opts f rest parents
        { r with nodes := PNode.text t.value t.l t.c :: r.nodes }
    | .openingTagname =>
      let tn := applyCasing opts t.value
      match parseOpen opts f tn [] t.l t.c rest parents with
      | .closed e rest1 =>
        let r := parseNodes opts f rest1 parents
        { r with nodes := e :: r.nodes }
      | .finished ws rest1 closing ok => ⟨ws, rest1, closing, ok⟩
    | .closingTagname =>
      let cn := applyCasing opts t.value
      if parents.contains cn then ⟨[], rest, some cn, true⟩
      else parseNodes opts f rest parents
    | .doctypeDeclaration =>
      let r := parseNodes opts f rest parents
      { r with nodes := PNode.doctype t.value t.l t.c :: r.nodes }
    | .comment =>
      let r := parseNodes opts f rest parents
      { r with nodes := PNode.comment t.value t.l t.c :: r.nodes }
    | _ => ⟨[], rest, none, false⟩
termination_by structural f => f

/-- The inner loop of the `OPENING_TAGNAME` case: collect attribute tokens
until the tag end.  On `OPENING_TAG_END` the element is written first and
the children are then parsed into its (materialized) child stream. -/
def parseOpen (opts : HTMLParserOptions) :
    Nat → String → List PAttr → Int → Int → List Tok → List String → OpenRes
  | 0, _, _, _, _, toks, _ => .finished [] toks none true
  | Nat.succ _, _, _, _, _, [], _ => .finished [] [] none true
  | Nat.succ f, tn, attrs, el, ec, t :: rest, parents =>
    match t.type with
    | .selfClosingTagEnd => .closed (PNode.element tn attrs false [] el ec) rest
    | .attributeName =>
      parseOpen opts f tn (attrs ++ [⟨t.value, "", t.l, t.c⟩]) el ec rest parents
    | .attributeValue =>
      if attrs.isEmpty then .finished [] rest none false
      else parseOpen opts f tn (setLastAttrValue attrs t.value) el ec rest parents
    | .openingTagEnd =>
      let r := parseNodes opts f rest (parents ++ [tn])
      let e := PNode.element tn attrs true r.nodes el ec
      if r.closing == some tn then .closed e r.rest
      else .finished [e] r.rest r.closing true
    | .eof => .finished [] rest none true
    | .error => .finished [] rest none false
    | _ => .finished [] rest none false
termination_by structural f => f

end

/-- The full string pipeline: lex the UTF-8 bytes, then build the root-level
node list (fuel `tokens + 1` is always sufficient: each builder step
consumes at least one token). -/
def parseHTMLString (opts : HTMLParserOptions) (s : String) : BResult :=
  let toks := (lexBytes opts (asciiBytes s)).1
  parseNodes opts (toks.length + 1) toks []

/-! Materialized nodes and the two `getResolvedStreamedElementNode`
resolution variants present in the repository. -/

/-- A fully materialized node; for elements, `children = none` means the
node has no `children` attribute at all, while `children = some cs` means
the attribute is present (possibly as an empty array). -/
inductive TNode where
  | element (tagName : String) (attrs : List PAttr) (children : Option (List TNode))
      (l c : Int)
  | text (s : String) (l c : Int)
  | doctype (s : String) (l c : Int)
  | comment (s : String) (l c : Int)

/-- `getResolvedStreamedElementNode` of `src/HTMLParser.js`: a node without
a `childStream` is returned as-is; a node with one gets a `children`
attribute holding the resolved child sequence, even when it is empty. -/
def resolveNodeCurrent : PNode → TNode
  | .element tn attrs hasBody children l c =>
    if hasBody then
      .element tn attrs (some (children.attach.map (fun x => resolveNodeCurrent x.1))) l c
    else
      .element tn attrs none l c
  | .text s l c => .text s l c
  | .doctype s l c => .doctype s l c
  | .comment s l c => .comment s l c
decreasing_by
  have := List.sizeOf_lt_of_mem x.2
  simp only [PNode.element.sizeOf_spec]
  omega

/-- `getResolvedStreamedElementNode` of the unnamed `part_003` variant: the
`children` attribute is added only when the resolved child sequence is
non-empty. -/
def resolveNodeP3 : PNode → TNode
  | .element tn attrs hasBody children l c =>
    if hasBody then
      let cs := children.attach.map (fun x => resolveNodeP3 x.1)
      if cs.length > 0 then .element tn attrs (some cs) l c
      else .element tn attrs none l c
    else .element tn attrs none l c
  | .text s l c => .text s l c
  | .doctype s l c => .doctype s l c
  | .comment s l c => .comment s l c
decreasing_by
  have := List.sizeOf_lt_of_mem x.2
  simp only [PNode.element.sizeOf_spec]
  omega

/-! The single-use `HTMLParseResult` handle of `src/HTMLParser.js`.  The
private `#generator` field is `none` once the handle has been consumed;
`used` reports its absence, and the async iterator throws the fixed error
when it is gone. -/

def consumedErrorMessage : String :=
  "HTMLParseResult instance has already been used"

structure HTMLParseResult where
  gen : Option (List PNode)

def HTMLParseResult.used (h : HTMLParseResult) : Bool :=
  h.gen.isNone

/-- Iterating the handle: yields the streamed root nodes once and leaves the
generator slot empty; a second attempt throws the fixed error. -/
def HTMLParseResult.iterate (h : HTMLParseResult) :
    Except String (List PNode × HTMLParseResult) :=
  match h.gen with
  | none => .error consumedErrorMessage
  | some ns => .ok (ns, ⟨none⟩)

/-- `toArray`: iterates the handle (so it is consumed the same way) and
resolves every streamed node. -/
def HTMLParseResult.toArray (h : HTMLParseResult) :
    Except String (List TNode × HTMLParseResult) :=
  match h.iterate with
  | .error e => .error e
  | .ok (ns, h1) => .ok (ns.map resolveNodeCurrent, h1)

/-! Write-order instrumentation of the tree builder for the temporal
parent-before-children property.  Streams are identified by numeric ids:
each writer write becomes an event `(stream id, streamed node)`, and the
fresh child stream created on `OPENING_TAG_END` gets the next id from a
counter.  The event list is the global order in which `write` calls are
executed by `parseChildNodes`. -/

/-- A streamed node as written to a stream: an element carries the id of
its attached child stream (if any) instead of materialized children. -/
inductive SNode where
  | element (tagName : String) (attrs : List PAttr) (childSid : Option Nat) (l c : Int)
  | text (s : String) (l c : Int)
  | doctype (s : String) (l c : Int)
  | comment (s : String) (l c : Int)
deriving DecidableEq, Repr

def SNode.childSid : SNode → Option Nat
  | .element _ _ k _ _ => k
  | _ => none

abbrev WEvent := Nat × SNode

structure TrResult where
  events : List WEvent
  rest : List Tok
  closing : Option String
  ctr : Nat
deriving DecidableEq, Repr

inductive TrOpenRes where
  | closed (evs : List WEvent) (rest : List Tok) (ctr : Nat)
  | finished (evs : List WEvent) (rest : List Tok) (closing : Option String) (ctr : Nat)
deriving DecidableEq, Repr

mutual

/-- `parseChildNodes` instrumented with write events; `sid` is the id of the
stream this level writes to, `ctr` the next fresh stream id. -/
def parseNodesTr (opts : HTMLParserOptions) :
    Nat → List Tok → List String → Nat → Nat → TrResult
  | 0, toks, _, _, ctr => ⟨[], toks, none, ctr⟩
  | Nat.succ _, [], _, _, ctr => ⟨[], [], none, ctr⟩
  | Nat.succ f, t :: rest, parents, sid, ctr =>
    match t.type with
    | .eof => ⟨[], rest, none, ctr⟩
    | .error => ⟨[], rest, none, ctr⟩
    | .textContent =>
      if t.value == "" then parseNodesTr opts f rest parents sid ctr
      else
        let r := parseNodesTr opts f rest parents sid ctr
        { r with events := (sid, SNode.text t.value t.l t.c) :: r.events }
    | .openingTagname =>
      let tn := applyCasing opts t.value
      match parseOpenTr opts f tn [] t.l t.c rest parents sid ctr with
      | .closed evs rest1 ctr1 =>
        let r := parseNodesTr opts f rest1 parents sid ctr1
        { r with events := evs ++ r.events }
      | .finished evs rest1 closing ctr1 => ⟨evs, rest1, closing, ctr1⟩
    | .closingTagname =>
      let cn := applyCasing opts t.value
      if parents.contains cn then ⟨[], rest, some cn, ctr⟩
      else parseNodesTr opts f rest parents sid ctr
    | .doctypeDeclaration =>
      let r := parseNodesTr opts f rest parents sid ctr
      { r with events := (sid, SNode.doctype t.value t.l t.c) :: r.events }
    | .comment =>
      let r := parseNodesTr opts f rest parents sid ctr
      { r with events := (sid, SNode.comment t.value t.l t.c) :: r.events }
    | _ => ⟨[], rest, none, ctr⟩

/-- The instrumented inner opening-tag loop.  On `OPENING_TAG_END` the
element node, carrying the id `k` of its fresh child stream, is written to
the parent stream strictly before the recursive call that produces the
events on stream `k`. -/
def parseOpenTr (opts : HTMLParserOptions) :
    Nat → String → List PAttr → Int → Int → List Tok → List String → Nat → Nat → TrOpenRes
  | 0, _, _, _, _, toks, _, _, ctr => .finished [] toks none ctr
  | Nat.succ _, _, _, _, _, [], _, _, ctr => .finished [] [] none ctr
  | Nat.succ f, tn, attrs, el, ec, t :: rest, parents, sid, ctr =>
    match t.type with
    | .selfClosingTagEnd =>
      .closed [(sid, SNode.element tn attrs none el ec)] rest ctr
    | .attributeName =>
      parseOpenTr opts f tn (attrs ++ [⟨t.value, "", t.l, t.c⟩]) el ec rest parents sid ctr
    | .attributeValue =>
      if attrs.isEmpty then .finished [] rest none ctr
      else parseOpenTr opts f tn (setLastAttrValue attrs t.value) el ec rest parents sid ctr
    | .openingTagEnd =>
      let k := ctr
      let r := parseNodesTr opts f rest (parents ++ [tn]) k (ctr + 1)
      let ev : WEvent := (sid, SNode.element tn attrs (some k) el ec)
      if r.closing == some tn then .closed (ev :: r.events) r.rest r.ctr
      else .finished (ev :: r.events) r.rest r.closing r.ctr
    | .eof => .finished [] rest none ctr
    | .error => .finished [] rest none ctr
    | _ => .finished [] rest none ctr

end

/-- The parent-before-children write order: whenever an event list splits as
`t1 ++ t2` and `t2` contains the write of an element node whose child
stream has id `k`, no event of `t1` is a write to stream `k`.  In other
words every write to a child stream occurs strictly after the write of the
element carrying that stream. -/
def ParentFirst (evs : List WEvent) : Prop :=
  ∀ t1 t2, evs = t1 ++ t2 → ∀ e ∈ t2, ∀ k, (e : WEvent).2.childSid = some k →
    ∀ ev ∈ t1, ev.1 ≠ k

/-! Position invariants for the lexer (claim C1). -/

/-- Token types whose emitted start position is always taken from a
successfully pulled character (so their column is ≥ 1).  `EOF`, `ERROR`,
`TEXT_CONTENT` and `CLOSING_TAGNAME` are excluded: terminator tokens carry
the raw column counter (0 at input start and after a line break), the
end-of-input text flush can inherit such a position when its buffer is
empty, and a raw-content closing tagname's column is computed by
subtraction. -/
def goodColType : TokType → Bool
  | .openingTagname | .openingTagEnd | .selfClosingTagEnd
  | .attributeName | .attributeValue | .comment | .doctypeDeclaration => true
  | _ => false

/-- The position guarantee the lexer actually provides: line ≥ 1 always;
column ≥ 1 for the `goodColType` tokens and for every non-empty
`TEXT_CONTENT` token. -/
def TokPosOK (t : Tok) : Prop :=
  1 ≤ t.l ∧ (goodColType t.type = true → 1 ≤ t.c) ∧
  (t.type = .textContent → t.value ≠ "" → 1 ≤ t.c)

/-- Invariant of the decoder's counters: the line counter starts at 1 and
only increments; the column counter is reset to 0 and otherwise
incremented. -/
def SrcInv (s : LexSrc) : Prop :=
  1 ≤ s.line ∧ 0 ≤ s.col ∧ 1 ≤ s.lastLine ∧ 0 ≤ s.lastCol

/-- Length of the maximal run of non-line-break codes at the end of a
buffer: every such character advanced the column by one, so this run
bounds the current column from below. -/
def suffixNB (buf : List Nat) : Nat :=
  (buf.reverse.takeWhile (fun c => !isLineBreak c)).length

def startOKg : Option (Int × Int) → Prop
  | none => True
  | some (l, c) => 1 ≤ l ∧ 1 ≤ c

/-- State invariant of the lexer: recorded start positions come from
successful pulls (line and column ≥ 1); in the text state the start may
also be a terminator position (column ≥ 0, but ≥ 1 whenever the buffer is
non-empty), the trailing non-break run of the buffer bounds the current
column, and the recorded previous position is the position of the last
buffered character. -/
def StInv : LexState → LexSrc → Prop
  | .text start prev buf, s =>
      (match start with
       | none => buf = []
       | some (l, c) => 1 ≤ l ∧ 0 ≤ c ∧ (buf ≠ [] → 1 ≤ c)) ∧
      ((suffixNB buf : Int) ≤ s.col) ∧
      (match buf.getLast?, prev with
       | none, none => True
       | some ch, some (pl, pc) =>
           1 ≤ pl ∧ 1 ≤ pc ∧ (isLineBreak ch = false → pc = s.col)
       | _, _ => False)
  | .openName start _, _ => startOKg start
  | .openAttrs _ _, _ => True
  | .attrName _ _ start _, _ => startOKg start
  | .afterAttrName _ _, _ => True
  | .quotedVal _ _ q _ _, _ =>
      (match q with
       | none => True
       | some (_, l, c) => 1 ≤ l ∧ 1 ≤ c)
  | .unquotedVal _ _ start _, _ => startOKg start
  | .closeName start _, _ => startOKg start
  | .closeEnd, _ => True
  | .commentSt start _, _ => startOKg start
  | .rawSt _ start _ _ _, _ => startOKg start
  | .doctypeSt sl sc _, _ => 1 ≤ sl ∧ 1 ≤ sc

/-! Recursive well-formedness predicates on built node trees. -/

/-- Every text node in the tree carries non-empty text. -/
inductive TextsNonempty : PNode → Prop
  | text (s : String) (l c : Int) : s ≠ "" → TextsNonempty (.text s l c)
  | doctype (s : String) (l c : Int) : TextsNonempty (.doctype s l c)
  | comment (s : String) (l c : Int) : TextsNonempty (.comment s l c)
  | element (tn : String) (attrs : List PAttr) (hb : Bool) (cs : List PNode)
      (l c : Int) :
      (∀ n ∈ cs, TextsNonempty n) → TextsNonempty (.element tn attrs hb cs l c)

/-- Every element of a materialized tree that carries a `children`
attribute has a non-empty children list (empty child sequences are
elided). -/
inductive ElidedOK : TNode → Prop
  | text (s : String) (l c : Int) : ElidedOK (.text s l c)
  | doctype (s : String) (l c : Int) : ElidedOK (.doctype s l c)
  | comment (s : String) (l c : Int) : ElidedOK (.comment s l c)
  | elemNone (tn : String) (attrs : List PAttr) (l c : Int) :
      ElidedOK (.element tn attrs none l c)
  | elemSome (tn : String) (attrs : List PAttr) (cs : List TNode) (l c : Int) :
      cs ≠ [] → (∀ n ∈ cs, ElidedOK n) → ElidedOK (.element tn attrs (some cs) l c)

/-- Well-scopedness of one write event produced by a builder call that
writes to stream `sid` while the fresh-id counter runs from `ctr` to
`ctr1`: the event targets either `sid` or a stream created in that span,
and any child stream it announces was created in that span. -/
def evOK (sid ctr ctr1 : Nat) (ev : WEvent) : Prop :=
  (ev.1 = sid ∨ (ctr ≤ ev.1 ∧ ev.1 < ctr1)) ∧
  (∀ k, ev.2.childSid = some k → ctr ≤ k ∧ k < ctr1)

/-- The conclusion of the one-step invariant lemma for the lexer: every
token emitted by this step satisfies the position guarantee, and when the
machine continues, the state and source invariants still hold. -/
def StepOK (opts : HTMLParserOptions) (st : LexState) (s : LexSrc) : Prop :=
  (∀ t ∈ (lexStep opts st s).1, TokPosOK t) ∧
  (∀ st1, (lexStep opts st s).2.2 = some st1 →
    StInv st1 (lexStep opts st s).2.1 ∧ SrcInv (lexStep opts st s).2.1)

/-! Concrete evaluation facts (counterexamples and scenario checks). -/

/-- C1 counterexample: on empty input the lexer's very first pull hits end
of input while the column counter is still 0, so the EOF token (and the
text flush before it) is emitted with column 0, contradicting the claim
that every emitted token, including EOF, has column ≥ 1. -/
theorem c1_eof_column_zero :
    (lexBytes defaultOptions []).1 =
      [⟨.textContent, "", 1, 0⟩, ⟨.eof, "", 1, 0⟩] ∧ ¬ (1 ≤ (0 : Int)) := by
  exact ⟨rfl, by decide⟩

/-- C2 counterexample: lexing "<div>" emits a TEXT_CONTENT token whose
value is the empty string (the text flushed before the tag transition),
contradicting the claim that the lexer never emits empty text tokens. -/
theorem c2_empty_text_emitted :
    (lexBytes defaultOptions (asciiBytes "<div>")).1.head? =
      some ⟨.textContent, "", 1, 1⟩ := rfl

/-- C3 counterexample: for the opening tag `<div / >` the character before
`>` is a space, and `prevCharCode` tracks the immediately preceding
character whitespace included, so the lexer emits OPENING_TAG_END, not the
SELF_CLOSING_TAG_END the claim asserts. -/
theorem c3_slash_space_gt_not_self_closing :
    (lexBytes defaultOptions (asciiBytes "<div / >")).1 =
      [⟨.textContent, "", 1, 1⟩, ⟨.openingTagname, "div", 1, 2⟩,
       ⟨.openingTagEnd, "", 1, 8⟩, ⟨.textContent, "", 1, 8⟩,
       ⟨.eof, "", 1, 8⟩] := rfl

/-- C4: on the byte input `61 00 62` (the UTF-8 encoding of "a\x00b"),
`readNextChar` coerces the NUL byte to `null` (its contract reserves
`null` for end of input), so lexing stops after "a": the final byte 62
is never consumed and no emitted token reflects it. -/
theorem c4_nul_truncates_input :
    (lexBytes defaultOptions [97, 0, 98]).1 =
      [⟨.textContent, "a", 1, 1⟩, ⟨.eof, "", 1, 1⟩] ∧
    (lexBytes defaultOptions [97, 0, 98]).2.input = [98] := by
  exact ⟨rfl, rfl⟩

/-- C10 counterexample: a 3-byte file holding exactly the UTF-8 BOM bytes
EF BB BF produces no ERROR token at all (EF is a valid 3-byte leading
byte), contradicting the claim that it yields an invalid-leading-byte
decode error. -/
theorem c10_bom3_no_decode_error :
    ((lexFileBytes defaultOptions [0xef, 0xbb, 0xbf]).1.all
      (fun t => t.type != TokType.error)) = true := rfl

/-- C10 amended: BOM detection indeed runs only when the initial read
yields at least four bytes — the 3-byte BOM file is not stripped, but its
bytes decode as the single codepoint U+FEFF, which is flushed as text
content; with a fourth byte present the BOM is stripped. -/
theorem c10_bom3_decodes_as_feff :
    (lexFileBytes defaultOptions [0xef, 0xbb, 0xbf]).1 =
      [⟨.textContent, "﻿", 1, 1⟩, ⟨.eof, "", 1, 1⟩] ∧
    fileUnits [0xef, 0xbb, 0xbf] = (false, [0xef, 0xbb, 0xbf]) ∧
    fileUnits [0xef, 0xbb, 0xbf, 60] = (false, [60]) := by
  exact ⟨rfl, rfl, rfl⟩

/-- C5 counterexample: `toArray` on the parse of "<div></div>" uses the
`getResolvedStreamedElementNode` of `src/HTMLParser.js`, which attaches a
`children` attribute holding the empty array to the opened-and-closed
element, contradicting the claim that such elements have no `children`
attribute at all. -/
theorem c5_open_close_gets_empty_children :
    HTMLParseResult.toArray ⟨some (parseHTMLString defaultOptions "<div></div>").nodes⟩ =
      .ok ([TNode.element "div" [] (some []) 1 2], ⟨none⟩) := by
  have h1 : (parseHTMLString defaultOptions "<div></div>").nodes =
      [PNode.element "div" [] true [] 1 2] := rfl
  simp [HTMLParseResult.toArray, HTMLParseResult.iterate, h1, resolveNodeCurrent]

/-- C6: on a CLOSING_TAGNAME token the builder applies the casing transform
and scans the ancestor tagname stack: a match makes `parseChildNodes`
return that name (terminating the matching ancestor's element), while a
stray close is ignored and parsing continues unchanged; consequently
`"<Div></div>hello"` under `tagNameCasing: "preserve"` yields a `Div`
element whose child is the text `hello`. -/
theorem c6_closing_tag_scan (opts : HTMLParserOptions) (v : String) (l c : Int)
    (rest : List Tok) (parents : List String) (fuel : Nat) :
    (applyCasing opts v ∈ parents →
      parseNodes opts (Nat.succ fuel) (⟨.closingTagname, v, l, c⟩ :: rest) parents =
        ⟨[], rest, some (applyCasing opts v), true⟩) ∧
    (applyCasing opts v ∉ parents →
      parseNodes opts (Nat.succ fuel) (⟨.closingTagname, v, l, c⟩ :: rest) parents =
        parseNodes opts fuel rest parents) ∧
    parseHTMLString ⟨.preserve, false⟩ "<Div></div>hello" =
      ⟨[.element "Div" [] true [.text "hello" 1 12] 1 2], [], none, true⟩ := by
  refine ⟨fun h => ?_, fun h => ?_, rfl⟩
  · simp [parseNodes, List.elem_iff.mpr h]
    intro hn
    exact absurd h hn
  · have hc : parents.contains (applyCasing opts v) = false := by
      simp [List.elem_iff]
      exact h
    simp [parseNodes, hc]
    intro hm
    exact absurd hm h

/-- Witness for `c6_closing_tag_scan`: with the default (lower) casing a
closing `DIV` matches an ancestor `div` and is returned. -/
theorem c6_closing_tag_scan_witness :
    parseNodes defaultOptions 1 [⟨.closingTagname, "DIV", 1, 1⟩] ["div"] =
      ⟨[], [], some "div", true⟩ := by
  have h := (c6_closing_tag_scan defaultOptions "DIV" 1 1 [] ["div"] 0).1
  have hm : applyCasing defaultOptions "DIV" ∈ ["div"] := by
    have : applyCasing defaultOptions "DIV" = "div" := rfl
    rw [this]
    exact List.mem_singleton.mpr rfl
  have h2 := h hm
  have hl : applyCasing defaultOptions "DIV" = "div" := rfl
  rw [hl] at h2
  exact h2

/-- C7: inside an unterminated quote, the raw-content state emits no token
and stays in the raw state for the same tagname, whatever the pulled
character is — so a literal closing-tag sequence inside the quote cannot
terminate the element; concretely,
`"<style>a{content:'</style>'}</style>"` parses to a single `style`
element whose only text child is `a{content:'</style>'}`. -/
theorem c7_raw_quote_protects_closing_tag
    (opts : HTMLParserOptions) (tag : List Nat) (start : Option (Int × Int))
    (qc : Nat) (esc : Bool) (buf : List Nat) (s s1 : LexSrc)
    (cp : Nat) (l c : Int)
    (hp : pullChar s = (.char cp l c, s1)) :
    (∃ start1 q1 esc1 buf1,
      lexStep opts (.rawSt tag start (some qc) esc buf) s =
        ([], s1, some (.rawSt tag start1 q1 esc1 buf1))) ∧
    parseHTMLString defaultOptions "<style>a\x7bcontent:'</style>'\x7d</style>" =
      ⟨[.element "style" [] true [.text "a\x7bcontent:'</style>'\x7d" 1 8] 1 2],
       [], none, true⟩ := by
  refine ⟨?_, rfl⟩
  simp only [lexStep, hp]
  by_cases h1 : (cp == 92 && !esc) = true
  · rw [if_pos h1]
    exact ⟨_, _, _, _, rfl⟩
  · rw [if_neg h1]
    by_cases h2 : (cp == qc && !esc) = true
    · rw [if_pos h2]
      exact ⟨_, _, _, _, rfl⟩
    · rw [if_neg h2]
      exact ⟨_, _, _, _, rfl⟩

/-- Witness for `c7_raw_quote_protects_closing_tag`: one step of the raw
style state inside a single-quote, at the character `<` of a literal
`</style>` sequence, emits nothing and stays in the raw state. -/
theorem c7_raw_quote_protects_closing_tag_witness :
    ∃ start1 q1 esc1 buf1,
      lexStep defaultOptions
        (.rawSt [115, 116, 121, 108, 101] none (some 39) false [97, 39])
        (initSrc false [60, 47, 115]) =
        ([], { initSrc false [60, 47, 115] with
                 input := [47, 115], lastRead := some 60, col := 1 },
         some (.rawSt [115, 116, 121, 108, 101] start1 q1 esc1 buf1)) := by
  exact (c7_raw_quote_protects_closing_tag defaultOptions
    [115, 116, 121, 108, 101] none 39 false [97, 39]
    (initSrc false [60, 47, 115]) _ 60 1 1 rfl).1

/-- C9: once a ParseResult handle has been consumed, it reports
`used = true` and every further consumption attempt — iteration or
`toArray` — fails with the same fixed `ConsumedError` message. -/
theorem c9_parse_result_single_use :
    (∀ (h : HTMLParseResult) (ns : List PNode) (h1 : HTMLParseResult),
      h.iterate = .ok (ns, h1) →
        h1.used = true ∧
        h1.iterate = .error consumedErrorMessage ∧
        h1.toArray = .error consumedErrorMessage) ∧
    (∀ (h : HTMLParseResult) (ms : List TNode) (h1 : HTMLParseResult),
      h.toArray = .ok (ms, h1) →
        h1.used = true ∧
        h1.iterate = .error consumedErrorMessage ∧
        h1.toArray = .error consumedErrorMessage) := by
  constructor
  · intro h ns h1 hit
    match hg : h.gen with
    | none => rw [HTMLParseResult.iterate, hg] at hit; exact absurd hit (by simp)
    | some xs =>
      rw [HTMLParseResult.iterate, hg] at hit
      have h1e : h1 = ⟨none⟩ := by
        injection hit with hit1
        exact (congrArg Prod.snd hit1).symm
      subst h1e
      exact ⟨rfl, rfl, rfl⟩
  · intro h ms h1 hta
    rw [HTMLParseResult.toArray] at hta
    match hit : h.iterate with
    | .error e => rw [hit] at hta; exact absurd hta (by simp)
    | .ok (ns, h2) =>
      rw [hit] at hta
      simp only [Except.ok.injEq] at hta
      have h2e : h1 = h2 := by
        have := congrArg Prod.snd hta
        simpa using this.symm
      match hg : h.gen with
      | none => rw [HTMLParseResult.iterate, hg] at hit; exact absurd hit (by simp)
      | some xs =>
        rw [HTMLParseResult.iterate, hg] at hit
        have : h2 = ⟨none⟩ := by
          injection hit with hit1
          exact (congrArg Prod.snd hit1).symm
        subst this
        subst h2e
        exact ⟨rfl, rfl, rfl⟩

/-- Witness for `c9_parse_result_single_use`: consuming a concrete fresh
handle leaves it used, and both re-consumption modes fail with the fixed
error. -/
theorem c9_parse_result_single_use_witness :
    HTMLParseResult.used ⟨none⟩ = true ∧
    HTMLParseResult.iterate ⟨none⟩ = .error consumedErrorMessage ∧
    HTMLParseResult.toArray ⟨none⟩ = .error consumedErrorMessage :=
  c9_parse_result_single_use.1 ⟨some [PNode.text "x" 1 1]⟩ [PNode.text "x" 1 1] ⟨none⟩ rfl

/-- Every node resolved by the `part_003` variant satisfies the elision
property: a `children` attribute, when present, is non-empty. -/
theorem resolveNodeP3_elidedOK (n : PNode) : ElidedOK (resolveNodeP3 n) := by
  have key : ∀ (m : Nat) (n : PNode), sizeOf n ≤ m → ElidedOK (resolveNodeP3 n) := by
    intro m
    induction m with
    | zero =>
      intro n hn
      cases n <;> simp at hn
    | succ m ih =>
      intro n hn
      match n with
      | .text s l c => rw [resolveNodeP3]; exact ElidedOK.text s l c
      | .doctype s l c => rw [resolveNodeP3]; exact ElidedOK.doctype s l c
      | .comment s l c => rw [resolveNodeP3]; exact ElidedOK.comment s l c
      | .element tn attrs hb cs l c =>
        rw [resolveNodeP3]
        by_cases hhb : hb
        · rw [if_pos hhb]
          simp only []
          by_cases hlen :
              (cs.attach.map (fun x => resolveNodeP3 x.1)).length > 0
          · rw [if_pos hlen]
            refine ElidedOK.elemSome _ _ _ _ _ (by
              intro hnil
              rw [hnil] at hlen
              simp at hlen) ?_
            intro nd hnd
            rcases List.mem_map.mp hnd with ⟨⟨x, hx⟩, _, hfx⟩
            have hsz : sizeOf x < sizeOf (PNode.element tn attrs hb cs l c) := by
              have h1 := List.sizeOf_lt_of_mem hx
              simp only [PNode.element.sizeOf_spec]
              omega
            have : sizeOf x ≤ m := by omega
            rw [← hfx]
            exact ih x this
          · rw [if_neg hlen]
            exact ElidedOK.elemNone tn attrs l c
        · rw [if_neg hhb]
          exact ElidedOK.elemNone tn attrs l c
  exact key (sizeOf n) n le_rfl

/-- C5 amended: under the `part_003` resolver every element with an empty
resolved child sequence has no `children` attribute at all; under the
`src/HTMLParser.js` resolver this holds for the elements without a child
stream (self-closing/void), while an opened-and-immediately-closed element
such as `<div></div>` instead receives `children: []`. -/
theorem c5_amended_children_elision :
    (∀ n : PNode, ElidedOK (resolveNodeP3 n)) ∧
    (∀ (tn : String) (attrs : List PAttr) (l c : Int),
      resolveNodeCurrent (.element tn attrs false [] l c) =
        .element tn attrs none l c) ∧
    resolveNodeP3 (.element "div" [] true [] 1 2) = .element "div" [] none 1 2 ∧
    resolveNodeCurrent (.element "div" [] true [] 1 2) =
      .element "div" [] (some []) 1 2 := by
  refine ⟨resolveNodeP3_elidedOK, ?_, ?_, ?_⟩
  · intro tn attrs l c
    rw [resolveNodeCurrent]
    simp
  · rw [resolveNodeP3]
    simp
  · rw [resolveNodeCurrent]
    simp

/-- Fuel induction for the builder: every node written by `parseNodes` (and
every element produced by `parseOpen`) contains only non-empty text nodes. -/
theorem builder_texts_aux (opts : HTMLParserOptions) :
    ∀ fuel : Nat,
      (∀ toks parents, ∀ n ∈ (parseNodes opts fuel toks parents).nodes,
        TextsNonempty n) ∧
      (∀ tn attrs el ec toks parents,
        (∀ e rest, parseOpen opts fuel tn attrs el ec toks parents = .closed e rest →
          TextsNonempty e) ∧
        (∀ ws rest cl ok,
          parseOpen opts fuel tn attrs el ec toks parents = .finished ws rest cl ok →
          ∀ n ∈ ws, TextsNonempty n)) := by
  intro fuel
  induction fuel with
  | zero =>
    constructor
    · intro toks parents n hn
      simp [parseNodes] at hn
    · intro tn attrs el ec toks parents
      constructor
      · intro e rest h
        simp [parseOpen] at h
      · intro ws rest cl ok h n hn
        simp only [parseOpen] at h
        injection h with h1 h2
        subst h1
        simp at hn
  | succ f ih =>
    constructor
    · intro toks parents n hn
      match toks with
      | [] => simp [parseNodes] at hn
      | t :: rest =>
        obtain ⟨ty, v, tl, tc⟩ := t
        cases ty with
        | eof => simp [parseNodes] at hn
        | error => simp [parseNodes] at hn
        | textContent =>
          by_cases hv : (v == "") = true
          · simp only [parseNodes] at hn
            simp only [hv, if_pos] at hn
            exact ih.1 rest parents n hn
          · simp only [parseNodes] at hn
            simp only [hv] at hn
            simp only [Bool.false_eq_true, if_false] at hn
            rcases List.mem_cons.mp hn with h | h
            · subst h
              exact TextsNonempty.text v tl tc (by simpa using hv)
            · exact ih.1 rest parents n h
        | openingTagname =>
          simp only [parseNodes] at hn
          cases hpo : parseOpen opts f (applyCasing opts v) [] tl tc rest parents with
          | closed e9 rest9 =>
            rw [hpo] at hn
            simp only [] at hn
            rcases List.mem_cons.mp hn with h | h
            · subst h
              exact (ih.2 (applyCasing opts v) [] tl tc rest parents).1 n rest9 hpo
            · exact ih.1 rest9 parents n h
          | finished ws9 rest9 cl9 ok9 =>
            rw [hpo] at hn
            exact (ih.2 (applyCasing opts v) [] tl tc rest parents).2 ws9 rest9 cl9 ok9 hpo n hn
        | closingTagname =>
          simp only [parseNodes] at hn
          by_cases hm : parents.contains (applyCasing opts v) = true
          · simp only [hm, if_pos] at hn
            simp at hn
          · simp only [Bool.not_eq_true] at hm
            simp only [hm, Bool.false_eq_true, if_false] at hn
            exact ih.1 rest parents n hn
        | doctypeDeclaration =>
          simp only [parseNodes] at hn
          rcases List.mem_cons.mp hn with h | h
          · subst h
            exact TextsNonempty.doctype v tl tc
          · exact ih.1 rest parents n h
        | comment =>
          simp only [parseNodes] at hn
          rcases List.mem_cons.mp hn with h | h
          · subst h
            exact TextsNonempty.comment v tl tc
          · exact ih.1 rest parents n h
        | openingTagEnd => simp [parseNodes] at hn
        | voidTagEnd => simp [parseNodes] at hn
        | selfClosingTagEnd => simp [parseNodes] at hn
        | attributeName => simp [parseNodes] at hn
        | attributeValue => simp [parseNodes] at hn
    · intro tn attrs el ec toks parents
      match toks with
      | [] =>
        constructor
        · intro e rest h
          simp [parseOpen] at h
        · intro ws rest cl ok h n hn
          simp only [parseOpen] at h
          injection h with h1 h2
          subst h1
          simp at hn
      | t :: rest =>
        obtain ⟨ty, v, tl, tc⟩ := t
        cases ty with
        | selfClosingTagEnd =>
          constructor
          · intro e rest1 h
            simp only [parseOpen] at h
            injection h with h1 h2
            subst h1
            exact TextsNonempty.element tn attrs false [] el ec (by simp)
          · intro ws rest1 cl ok h n hn
            simp [parseOpen] at h
        | attributeName =>
          constructor
          · intro e rest1 h
            simp only [parseOpen] at h
            exact (ih.2 tn (attrs ++ [⟨v, "", tl, tc⟩]) el ec rest parents).1 e rest1 h
          · intro ws rest1 cl ok h n hn
            simp only [parseOpen] at h
            exact (ih.2 tn (attrs ++ [⟨v, "", tl, tc⟩]) el ec rest parents).2
              ws rest1 cl ok h n hn
        | attributeValue =>
          constructor
          · intro e rest1 h
            simp only [parseOpen] at h
            by_cases ha : attrs.isEmpty = true
            · simp only [ha, if_pos] at h
              exact absurd h (by simp)
            · simp only [Bool.not_eq_true] at ha
              simp only [ha, Bool.false_eq_true, if_false] at h
              exact (ih.2 tn (setLastAttrValue attrs v) el ec rest parents).1 e rest1 h
          · intro ws rest1 cl ok h n hn
            simp only [parseOpen] at h
            by_cases ha : attrs.isEmpty = true
            · simp only [ha, if_pos] at h
              injection h with h1 h2
              subst h1
              simp at hn
            · simp only [Bool.not_eq_true] at ha
              simp only [ha, Bool.false_eq_true, if_false] at h
              exact (ih.2 tn (setLastAttrValue attrs v) el ec rest parents).2
                ws rest1 cl ok h n hn
        | openingTagEnd =>
          have helem : TextsNonempty
              (PNode.element tn attrs true
                (parseNodes opts f rest (parents ++ [tn])).nodes el ec) :=
            TextsNonempty.element _ _ _ _ _ _
              (fun n hn => ih.1 rest (parents ++ [tn]) n hn)
          constructor
          · intro e rest1 h
            simp only [parseOpen] at h
            by_cases hcl :
                ((parseNodes opts f rest (parents ++ [tn])).closing == some tn) = true
            · simp only [hcl, if_pos] at h
              injection h with h1 h2
              subst h1
              exact helem
            · simp only [Bool.not_eq_true] at hcl
              simp only [hcl, Bool.false_eq_true, if_false] at h
              exact absurd h (by simp)
          · intro ws rest1 cl ok h n hn
            simp only [parseOpen] at h
            by_cases hcl :
                ((parseNodes opts f rest (parents ++ [tn])).closing == some tn) = true
            · simp only [hcl, if_pos] at h
              exact absurd h (by simp)
            · simp only [Bool.not_eq_true] at hcl
              simp only [hcl, Bool.false_eq_true, if_false] at h
              injection h with h1 h2
              subst h1
              rcases List.mem_singleton.mp hn with h
              subst h
              exact helem
        | eof =>
          constructor
          · intro e rest1 h
            simp [parseOpen] at h
          · intro ws rest1 cl ok h n hn
            simp only [parseOpen] at h
            injection h with h1 h2
            subst h1
            simp at hn
        | error =>
          constructor
          · intro e rest1 h
            simp [parseOpen] at h
          · intro ws rest1 cl ok h n hn
            simp only [parseOpen] at h
            injection h with h1 h2
            subst h1
            simp at hn
        | textContent =>
          constructor
          · intro e rest1 h
            simp [parseOpen] at h
          · intro ws rest1 cl ok h n hn
            simp only [parseOpen] at h
            injection h with h1 h2
            subst h1
            simp at hn
        | openingTagname =>
          constructor
          · intro e rest1 h
            simp [parseOpen] at h
          · intro ws rest1 cl ok h n hn
            simp only [parseOpen] at h
            injection h with h1 h2
            subst h1
            simp at hn
        | closingTagname =>
          constructor
          · intro e rest1 h
            simp [parseOpen] at h
          · intro ws rest1 cl ok h n hn
            simp only [parseOpen] at h
            injection h with h1 h2
            subst h1
            simp at hn
        | voidTagEnd =>
          constructor
          · intro e rest1 h
            simp [parseOpen] at h
          · intro ws rest1 cl ok h n hn
            simp only [parseOpen] at h
            injection h with h1 h2
            subst h1
            simp at hn
        | comment =>
          constructor
          · intro e rest1 h
            simp [parseOpen] at h
          · intro ws rest1 cl ok h n hn
            simp only [parseOpen] at h
            injection h with h1 h2
            subst h1
            simp at hn
        | doctypeDeclaration =>
          constructor
          · intro e rest1 h
            simp [parseOpen] at h
          · intro ws rest1 cl ok h n hn
            simp only [parseOpen] at h
            injection h with h1 h2
            subst h1
            simp at hn

/-- C2 amended: the lexer itself does emit empty TEXT_CONTENT tokens (see
the counterexample), and the suppression happens in the tree builder:
every text node in every tree produced by `parseChildNodes` carries a
non-empty string. -/
theorem c2_amended_builder_suppresses_empty_text
    (opts : HTMLParserOptions) (fuel : Nat) (toks : List Tok)
    (parents : List String) (n : PNode)
    (hn : n ∈ (parseNodes opts fuel toks parents).nodes) :
    TextsNonempty n :=
  (builder_texts_aux opts fuel).1 toks parents n hn

/-- Witness for `c2_amended_builder_suppresses_empty_text` at the parse of
the single-character input "x". -/
theorem c2_amended_builder_suppresses_empty_text_witness :
    TextsNonempty (PNode.text "x" 1 1) := by
  refine c2_amended_builder_suppresses_empty_text defaultOptions 8
    (lexBytes defaultOptions (asciiBytes "x")).1 [] (PNode.text "x" 1 1) ?_
  have h : (parseNodes defaultOptions 8
      (lexBytes defaultOptions (asciiBytes "x")).1 []).nodes =
      [PNode.text "x" 1 1] := rfl
  rw [h]
  exact List.mem_singleton.mpr rfl

/-- C3 amended: when the attribute loop reads `>`, SELF_CLOSING_TAG_END is
emitted if and only if the tagname is void, or self-closing syntax is not
ignored and the immediately preceding character — whitespace included, so
not the previous non-whitespace character — was `/`; otherwise
OPENING_TAG_END is emitted.  In particular `<div/>` self-closes but
`<div / >` does not. -/
theorem c3_amended_self_closing_iff
    (opts : HTMLParserOptions) (tag : List Nat) (prev : Option Nat)
    (s s1 : LexSrc) (l c : Int)
    (hp : pullChar s = (.char 62 l c, s1)) :
    ((lexStep opts (.openAttrs tag prev) s).1 = [⟨.selfClosingTagEnd, "", l, c⟩] ↔
      (isVoidElementTagname (cpsToString tag) = true ∨
       (opts.ignoreSelfClosingSyntax = false ∧ prev = some 47))) ∧
    ((isVoidElementTagname (cpsToString tag) = false ∧
      ¬ (opts.ignoreSelfClosingSyntax = false ∧ prev = some 47)) →
      (lexStep opts (.openAttrs tag prev) s).1 = [⟨.openingTagEnd, "", l, c⟩]) := by
  have hw : isWhitespace 62 = false := by decide
  have hcond : (isVoidElementTagname (cpsToString tag) ||
      (!opts.ignoreSelfClosingSyntax && prev == some 47)) = true ↔
      (isVoidElementTagname (cpsToString tag) = true ∨
       (opts.ignoreSelfClosingSyntax = false ∧ prev = some 47)) := by
    simp [Bool.or_eq_true, Bool.and_eq_true, Bool.not_eq_true']
  by_cases hc : (isVoidElementTagname (cpsToString tag) ||
      (!opts.ignoreSelfClosingSyntax && prev == some 47)) = true
  · constructor
    · rw [iff_true_right (hcond.mp hc)]
      simp only [lexStep, hp, hw]
      rw [if_pos hc]
      simp
    · intro hno
      exact absurd (hcond.mp hc) (by
        intro hd
        rcases hd with hd | hd
        · rw [hno.1] at hd
          exact Bool.false_ne_true hd
        · exact hno.2 hd)
  · constructor
    · rw [iff_false_right (fun hd => hc (hcond.mpr hd))]
      simp only [lexStep, hp, hw]
      rw [if_neg hc]
      by_cases hraw : isRawTextContentElementTagname (cpsToString tag) = true
      · rw [if_pos hraw]
        simp
      · rw [if_neg hraw]
        simp
    · intro _
      simp only [lexStep, hp, hw]
      rw [if_neg hc]
      by_cases hraw : isRawTextContentElementTagname (cpsToString tag) = true
      · rw [if_pos hraw]
        simp
      · rw [if_neg hraw]
        simp

/-- Witness for `c3_amended_self_closing_iff`: `<div` followed directly by
`/` then `>` emits SELF_CLOSING_TAG_END under the default options. -/
theorem c3_amended_self_closing_iff_witness :
    (lexStep defaultOptions (.openAttrs [100, 105, 118] (some 47))
      (initSrc false [62])).1 = [⟨.selfClosingTagEnd, "", 1, 1⟩] :=
  (c3_amended_self_closing_iff defaultOptions [100, 105, 118] (some 47)
    (initSrc false [62]) _ 1 1 rfl).1.mpr (Or.inr ⟨rfl, rfl⟩)

/-! Helper lemmas for the write-order property (C8). -/

theorem evOK_mono {sid a b a1 b1 : Nat} {ev : WEvent}
    (h : evOK sid a b ev) (ha : a1 ≤ a) (hb : b ≤ b1) : evOK sid a1 b1 ev := by
  obtain ⟨h1, h2⟩ := h
  refine ⟨?_, ?_⟩
  · rcases h1 with h1 | h1
    · exact Or.inl h1
    · exact Or.inr ⟨le_trans ha h1.1, lt_of_lt_of_le h1.2 hb⟩
  · intro k hk
    obtain ⟨hk1, hk2⟩ := h2 k hk
    exact ⟨le_trans ha hk1, lt_of_lt_of_le hk2 hb⟩

theorem parentFirst_nil : ParentFirst [] := by
  intro t1 t2 heq e he
  have : t2 = [] := (List.append_eq_nil.mp heq.symm).2
  rw [this] at he
  exact absurd he (List.not_mem_nil e)

theorem parentFirst_single (ev : WEvent) : ParentFirst [ev] := by
  intro t1 t2 heq e he k hk ev1 hev1
  cases t1 with
  | nil => exact absurd hev1 (List.not_mem_nil ev1)
  | cons a r =>
    rw [List.cons_append] at heq
    injection heq with h1 h2
    have h3 : t2 = [] := (List.append_eq_nil.mp h2.symm).2
    rw [h3] at he
    exact absurd he (List.not_mem_nil e)

theorem parentFirst_append {t1 t2 : List WEvent}
    (h1 : ParentFirst t1) (h2 : ParentFirst t2)
    (hx : ∀ e ∈ t2, ∀ k, (e : WEvent).2.childSid = some k → ∀ ev ∈ t1, ev.1 ≠ k) :
    ParentFirst (t1 ++ t2) := by
  intro s1 s2 heq e he k hk ev hev
  rcases List.append_eq_append_iff.mp heq.symm with ⟨m, ht1, hs2⟩ | ⟨m, hs1, ht2⟩
  · -- t1 = s1 ++ m and s2 = m ++ t2 : the split point is inside t1
    subst ht1
    subst hs2
    rcases List.mem_append.mp he with hem | het2
    · exact h1 s1 m rfl e hem k hk ev hev
    · exact hx e het2 k hk ev (List.mem_append_left m hev)
  · -- s1 = t1 ++ m and t2 = m ++ s2 : the split point is inside t2
    subst hs1
    subst ht2
    rcases List.mem_append.mp hev with hev1 | hevm
    · exact hx e (List.mem_append_right m he) k hk ev hev1
    · exact h2 m s2 rfl e he k hk ev hevm

theorem parentFirst_cons {ev : WEvent} {t : List WEvent}
    (h : ParentFirst t)
    (hx : ∀ e ∈ t, ∀ k, (e : WEvent).2.childSid = some k → ev.1 ≠ k) :
    ParentFirst (ev :: t) := by
  have := @parentFirst_append [ev] t (parentFirst_single ev) h
    (fun e he k hk ev1 hev1 => by
      rcases List.mem_singleton.mp hev1 with h1
      subst h1
      exact hx e he k hk)
  simpa using this

/-- Fuel induction: every event written by the instrumented builder targets
the given stream or a stream created during the call, child streams are
created during the call, and the id counter is monotone. -/
theorem trRange_aux (opts : HTMLParserOptions) :
    ∀ fuel : Nat,
      (∀ toks parents sid ctr,
        ctr ≤ (parseNodesTr opts fuel toks parents sid ctr).ctr ∧
        (∀ ev ∈ (parseNodesTr opts fuel toks parents sid ctr).events,
          evOK sid ctr (parseNodesTr opts fuel toks parents sid ctr).ctr ev)) ∧
      (∀ tn attrs el ec toks parents sid ctr,
        (∀ evs rest1 ctr1,
          parseOpenTr opts fuel tn attrs el ec toks parents sid ctr =
            .closed evs rest1 ctr1 →
          ctr ≤ ctr1 ∧ ∀ ev ∈ evs, evOK sid ctr ctr1 ev) ∧
        (∀ evs rest1 cl ctr1,
          parseOpenTr opts fuel tn attrs el ec toks parents sid ctr =
            .finished evs rest1 cl ctr1 →
          ctr ≤ ctr1 ∧ ∀ ev ∈ evs, evOK sid ctr ctr1 ev)) := by
  intro fuel
  induction fuel with
  | zero =>
    constructor
    · intro toks parents sid ctr
      refine ⟨le_rfl, ?_⟩
      intro ev hev
      simp [parseNodesTr] at hev
    · intro tn attrs el ec toks parents sid ctr
      constructor
      · intro evs rest1 ctr1 h
        simp [parseOpenTr] at h
      · intro evs rest1 cl ctr1 h
        rw [parseOpenTr] at h
        injection h with h1 h2 h3 h4
        subst h1
        subst h4
        refine ⟨le_rfl, ?_⟩
        intro ev hev
        simp at hev
  | succ f ih =>
    constructor
    · intro toks parents sid ctr
      match toks with
      | [] =>
        refine ⟨le_rfl, ?_⟩
        intro ev hev
        simp [parseNodesTr] at hev
      | t :: rest =>
        obtain ⟨ty, v, tl, tc⟩ := t
        cases ty with
        | eof =>
          refine ⟨by simp [parseNodesTr], ?_⟩
          intro ev hev
          simp [parseNodesTr] at hev
        | error =>
          refine ⟨by simp [parseNodesTr], ?_⟩
          intro ev hev
          simp [parseNodesTr] at hev
        | openingTagEnd =>
          refine ⟨by simp [parseNodesTr], ?_⟩
          intro ev hev
          simp [parseNodesTr] at hev
        | voidTagEnd =>
          refine ⟨by simp [parseNodesTr], ?_⟩
          intro ev hev
          simp [parseNodesTr] at hev
        | selfClosingTagEnd =>
          refine ⟨by simp [parseNodesTr], ?_⟩
          intro ev hev
          simp [parseNodesTr] at hev
        | attributeName =>
          refine ⟨by simp [parseNodesTr], ?_⟩
          intro ev hev
          simp [parseNodesTr] at hev
        | attributeValue =>
          refine ⟨by simp [parseNodesTr], ?_⟩
          intro ev hev
          simp [parseNodesTr] at hev
        | textContent =>
          by_cases hv : (v == "") = true
          · have hres : parseNodesTr opts (Nat.succ f)
                (⟨.textContent, v, tl, tc⟩ :: rest) parents sid ctr =
                parseNodesTr opts f rest parents sid ctr := by
              simp [parseNodesTr, hv]
            rw [hres]
            exact ih.1 rest parents sid ctr
          · have hres : parseNodesTr opts (Nat.succ f)
                (⟨.textContent, v, tl, tc⟩ :: rest) parents sid ctr =
                { parseNodesTr opts f rest parents sid ctr with
                  events := (sid, SNode.text v tl tc) ::
                    (parseNodesTr opts f rest parents sid ctr).events } := by
              simp [parseNodesTr, hv]
            rw [hres]
            refine ⟨(ih.1 rest parents sid ctr).1, ?_⟩
            intro ev hev
            simp only [List.mem_cons] at hev
            rcases hev with h | h
            · subst h
              exact ⟨Or.inl rfl, by intro k hk; simp [SNode.childSid] at hk⟩
            · exact (ih.1 rest parents sid ctr).2 ev h
        | doctypeDeclaration =>
          have hres : parseNodesTr opts (Nat.succ f)
              (⟨.doctypeDeclaration, v, tl, tc⟩ :: rest) parents sid ctr =
              { parseNodesTr opts f rest parents sid ctr with
                events := (sid, SNode.doctype v tl tc) ::
                  (parseNodesTr opts f rest parents sid ctr).events } := by
            simp [parseNodesTr]
          rw [hres]
          refine ⟨(ih.1 rest parents sid ctr).1, ?_⟩
          intro ev hev
          simp only [List.mem_cons] at hev
          rcases hev with h | h
          · subst h
            exact ⟨Or.inl rfl, by intro k hk; simp [SNode.childSid] at hk⟩
          · exact (ih.1 rest parents sid ctr).2 ev h
        | comment =>
          have hres : parseNodesTr opts (Nat.succ f)
              (⟨.comment, v, tl, tc⟩ :: rest) parents sid ctr =
              { parseNodesTr opts f rest parents sid ctr with
                events := (sid, SNode.comment v tl tc) ::
                  (parseNodesTr opts f rest parents sid ctr).events } := by
            simp [parseNodesTr]
          rw [hres]
          refine ⟨(ih.1 rest parents sid ctr).1, ?_⟩
          intro ev hev
          simp only [List.mem_cons] at hev
          rcases hev with h | h
          · subst h
            exact ⟨Or.inl rfl, by intro k hk; simp [SNode.childSid] at hk⟩
          · exact (ih.1 rest parents sid ctr).2 ev h
        | closingTagname =>
          by_cases hm : parents.contains (applyCasing opts v) = true
          · have hres : parseNodesTr opts (Nat.succ f)
                (⟨.closingTagname, v, tl, tc⟩ :: rest) parents sid ctr =
                ⟨[], rest, some (applyCasing opts v), ctr⟩ := by
              simp only [parseNodesTr, hm, if_pos]
            rw [hres]
            refine ⟨le_rfl, ?_⟩
            intro ev hev
            simp at hev
          · have hres : parseNodesTr opts (Nat.succ f)
                (⟨.closingTagname, v, tl, tc⟩ :: rest) parents sid ctr =
                parseNodesTr opts f rest parents sid ctr := by
              simp only [Bool.not_eq_true] at hm
              simp only [parseNodesTr, hm, Bool.false_eq_true, if_false]
            rw [hres]
            exact ih.1 rest parents sid ctr
        | openingTagname =>
          cases hpo : parseOpenTr opts f (applyCasing opts v) [] tl tc rest parents sid ctr with
          | closed evs rest9 ctr9 =>
            have hres : parseNodesTr opts (Nat.succ f)
                (⟨.openingTagname, v, tl, tc⟩ :: rest) parents sid ctr =
                { parseNodesTr opts f rest9 parents sid ctr9 with
                  events := evs ++ (parseNodesTr opts f rest9 parents sid ctr9).events } := by
              simp [parseNodesTr, hpo]
            rw [hres]
            have hop := ((ih.2 (applyCasing opts v) [] tl tc rest parents sid ctr).1
              evs rest9 ctr9 hpo)
            have hn2 := ih.1 rest9 parents sid ctr9
            refine ⟨le_trans hop.1 hn2.1, ?_⟩
            intro ev hev
            rcases List.mem_append.mp hev with h | h
            · exact evOK_mono (hop.2 ev h) le_rfl hn2.1
            · exact evOK_mono (hn2.2 ev h) hop.1 le_rfl
          | finished evs rest9 cl9 ctr9 =>
            have hres : parseNodesTr opts (Nat.succ f)
                (⟨.openingTagname, v, tl, tc⟩ :: rest) parents sid ctr =
                ⟨evs, rest9, cl9, ctr9⟩ := by
              simp [parseNodesTr, hpo]
            rw [hres]
            exact (ih.2 (applyCasing opts v) [] tl tc rest parents sid ctr).2
              evs rest9 cl9 ctr9 hpo
    · intro tn attrs el ec toks parents sid ctr
      match toks with
      | [] =>
        constructor
        · intro evs rest1 ctr1 h
          simp [parseOpenTr] at h
        · intro evs rest1 cl ctr1 h
          rw [parseOpenTr] at h
          injection h with h1 h2 h3 h4
          subst h1
          subst h4
          refine ⟨le_rfl, ?_⟩
          intro ev hev
          simp at hev
      | t :: rest =>
        obtain ⟨ty, v, tl, tc⟩ := t
        cases ty with
        | selfClosingTagEnd =>
          constructor
          · intro evs rest1 ctr1 h
            simp only [parseOpenTr] at h
            injection h with h1 h2 h3
            subst h1
            subst h3
            refine ⟨le_rfl, ?_⟩
            intro ev hev
            rcases List.mem_singleton.mp hev with h4
            subst h4
            exact ⟨Or.inl rfl, by intro k hk; simp [SNode.childSid] at hk⟩
          · intro evs rest1 cl ctr1 h
            simp [parseOpenTr] at h
        | attributeName =>
          constructor
          · intro evs rest1 ctr1 h
            simp only [parseOpenTr] at h
            exact (ih.2 tn (attrs ++ [⟨v, "", tl, tc⟩]) el ec rest parents sid ctr).1
              evs rest1 ctr1 h
          · intro evs rest1 cl ctr1 h
            simp only [parseOpenTr] at h
            exact (ih.2 tn (attrs ++ [⟨v, "", tl, tc⟩]) el ec rest parents sid ctr).2
              evs rest1 cl ctr1 h
        | attributeValue =>
          constructor
          · intro evs rest1 ctr1 h
            simp only [parseOpenTr] at h
            by_cases ha : attrs.isEmpty = true
            · simp only [ha, if_pos] at h
              exact absurd h (by simp)
            · simp only [Bool.not_eq_true] at ha
              simp only [ha, Bool.false_eq_true, if_false] at h
              exact (ih.2 tn (setLastAttrValue attrs v) el ec rest parents sid ctr).1
                evs rest1 ctr1 h
          · intro evs rest1 cl ctr1 h
            simp only [parseOpenTr] at h
            by_cases ha : attrs.isEmpty = true
            · simp only [ha, if_pos] at h
              injection h with h1 h2 h3 h4
              subst h1
              subst h4
              refine ⟨le_rfl, ?_⟩
              intro ev hev
              simp at hev
            · simp only [Bool.not_eq_true] at ha
              simp only [ha, Bool.false_eq_true, if_false] at h
              exact (ih.2 tn (setLastAttrValue attrs v) el ec rest parents sid ctr).2
                evs rest1 cl ctr1 h
        | openingTagEnd =>
          have hn := ih.1 rest (parents ++ [tn]) ctr (ctr + 1)
          have hmain : ctr ≤ (parseNodesTr opts f rest (parents ++ [tn]) ctr (ctr + 1)).ctr ∧
              ∀ ev ∈ (sid, SNode.element tn attrs (some ctr) el ec) ::
                  (parseNodesTr opts f rest (parents ++ [tn]) ctr (ctr + 1)).events,
                evOK sid ctr (parseNodesTr opts f rest (parents ++ [tn]) ctr (ctr + 1)).ctr ev := by
            refine ⟨le_trans (Nat.le_succ ctr) hn.1, ?_⟩
            intro ev hev
            rcases List.mem_cons.mp hev with h | h
            · subst h
              refine ⟨Or.inl rfl, ?_⟩
              intro k hk
              simp only [SNode.childSid] at hk
              injection hk with hk1
              subst hk1
              exact ⟨le_rfl, lt_of_lt_of_le (Nat.lt_succ_self ctr) hn.1⟩
            · have h2 := hn.2 ev h
              obtain ⟨h21, h22⟩ := h2
              refine ⟨?_, ?_⟩
              · rcases h21 with h21 | h21
                · refine Or.inr ⟨le_of_eq h21.symm, ?_⟩
                  rw [h21]
                  exact lt_of_lt_of_le (Nat.lt_succ_self ctr) hn.1
                · exact Or.inr ⟨le_trans (Nat.le_succ ctr) h21.1, h21.2⟩
              · intro k hk
                obtain ⟨hk1, hk2⟩ := h22 k hk
                exact ⟨le_trans (Nat.le_succ ctr) hk1, hk2⟩
          constructor
          · intro evs rest1 ctr1 h
            simp only [parseOpenTr] at h
            by_cases hcl : ((parseNodesTr opts f rest (parents ++ [tn]) ctr (ctr + 1)).closing
                == some tn) = true
            · simp only [hcl, if_pos] at h
              injection h with h1 h2 h3
              subst h1
              subst h3
              exact hmain
            · simp only [Bool.not_eq_true] at hcl
              simp only [hcl, Bool.false_eq_true, if_false] at h
              exact absurd h (by simp)
          · intro evs rest1 cl ctr1 h
            simp only [parseOpenTr] at h
            by_cases hcl : ((parseNodesTr opts f rest (parents ++ [tn]) ctr (ctr + 1)).closing
                == some tn) = true
            · simp only [hcl, if_pos] at h
              exact absurd h (by simp)
            · simp only [Bool.not_eq_true] at hcl
              simp only [hcl, Bool.false_eq_true, if_false] at h
              injection h with h1 h2 h3 h4
              subst h1
              subst h4
              exact hmain
        | eof =>
          constructor
          · intro evs rest1 ctr1 h
            simp [parseOpenTr] at h
          · intro evs rest1 cl ctr1 h
            simp only [parseOpenTr] at h
            injection h with h1 h2 h3 h4
            subst h1
            subst h4
            refine ⟨le_rfl, ?_⟩
            intro ev hev
            simp at hev
        | error =>
          constructor
          · intro evs rest1 ctr1 h
            simp [parseOpenTr] at h
          · intro evs rest1 cl ctr1 h
            simp only [parseOpenTr] at h
            injection h with h1 h2 h3 h4
            subst h1
            subst h4
            refine ⟨le_rfl, ?_⟩
            intro ev hev
            simp at hev
        | textContent =>
          constructor
          · intro evs rest1 ctr1 h
            simp [parseOpenTr] at h
          · intro evs rest1 cl ctr1 h
            simp only [parseOpenTr] at h
            injection h with h1 h2 h3 h4
            subst h1
            subst h4
            refine ⟨le_rfl, ?_⟩
            intro ev hev
            simp at hev
        | openingTagname =>
          constructor
          · intro evs rest1 ctr1 h
            simp [parseOpenTr] at h
          · intro evs rest1 cl ctr1 h
            simp only [parseOpenTr] at h
            injection h with h1 h2 h3 h4
            subst h1
            subst h4
            refine ⟨le_rfl, ?_⟩
            intro ev hev
            simp at hev
        | closingTagname =>
          constructor
          · intro evs rest1 ctr1 h
            simp [parseOpenTr] at h
          · intro evs rest1 cl ctr1 h
            simp only [parseOpenTr] at h
            injection h with h1 h2 h3 h4
            subst h1
            subst h4
            refine ⟨le_rfl, ?_⟩
            intro ev hev
            simp at hev
        | voidTagEnd =>
          constructor
          · intro evs rest1 ctr1 h
            simp [parseOpenTr] at h
          · intro evs rest1 cl ctr1 h
            simp only [parseOpenTr] at h
            injection h with h1 h2 h3 h4
            subst h1
            subst h4
            refine ⟨le_rfl, ?_⟩
            intro ev hev
            simp at hev
        | comment =>
          constructor
          · intro evs rest1 ctr1 h
            simp [parseOpenTr] at h
          · intro evs rest1 cl ctr1 h
            simp only [parseOpenTr] at h
            injection h with h1 h2 h3 h4
            subst h1
            subst h4
            refine ⟨le_rfl, ?_⟩
            intro ev hev
            simp at hev
        | doctypeDeclaration =>
          constructor
          · intro evs rest1 ctr1 h
            simp [parseOpenTr] at h
          · intro evs rest1 cl ctr1 h
            simp only [parseOpenTr] at h
            injection h with h1 h2 h3 h4
            subst h1
            subst h4
            refine ⟨le_rfl, ?_⟩
            intro ev hev
            simp at hev

/-- Fuel induction: the event trace of the instrumented builder satisfies
the parent-before-children write order whenever the target stream id is
older than every fresh id. -/
theorem trPF_aux (opts : HTMLParserOptions) :
    ∀ fuel : Nat,
      (∀ toks parents sid ctr, sid < ctr →
        ParentFirst (parseNodesTr opts fuel toks parents sid ctr).events) ∧
      (∀ tn attrs el ec toks parents sid ctr, sid < ctr →
        (∀ evs rest1 ctr1,
          parseOpenTr opts fuel tn attrs el ec toks parents sid ctr =
            .closed evs rest1 ctr1 → ParentFirst evs) ∧
        (∀ evs rest1 cl ctr1,
          parseOpenTr opts fuel tn attrs el ec toks parents sid ctr =
            .finished evs rest1 cl ctr1 → ParentFirst evs)) := by
  intro fuel
  induction fuel with
  | zero =>
    constructor
    · intro toks parents sid ctr _
      have h : (parseNodesTr opts 0 toks parents sid ctr).events = [] := by
        simp [parseNodesTr]
      rw [h]
      exact parentFirst_nil
    · intro tn attrs el ec toks parents sid ctr _
      constructor
      · intro evs rest1 ctr1 h
        simp [parseOpenTr] at h
      · intro evs rest1 cl ctr1 h
        rw [parseOpenTr] at h
        injection h with h1 h2 h3 h4
        subst h1
        exact parentFirst_nil
  | succ f ih =>
    constructor
    · intro toks parents sid ctr hsid
      match toks with
      | [] =>
        have h : (parseNodesTr opts (Nat.succ f) [] parents sid ctr).events = [] := by
          simp [parseNodesTr]
        rw [h]
        exact parentFirst_nil
      | t :: rest =>
        obtain ⟨ty, v, tl, tc⟩ := t
        cases ty with
        | eof =>
          have h : (parseNodesTr opts (Nat.succ f)
              (⟨TokType.eof, v, tl, tc⟩ :: rest) parents sid ctr).events = [] := by
            simp [parseNodesTr]
          rw [h]
          exact parentFirst_nil
        | error =>
          have h : (parseNodesTr opts (Nat.succ f)
              (⟨TokType.error, v, tl, tc⟩ :: rest) parents sid ctr).events = [] := by
            simp [parseNodesTr]
          rw [h]
          exact parentFirst_nil
        | openingTagEnd =>
          have h : (parseNodesTr opts (Nat.succ f)
              (⟨TokType.openingTagEnd, v, tl, tc⟩ :: rest) parents sid ctr).events = [] := by
            simp [parseNodesTr]
          rw [h]
          exact parentFirst_nil
        | voidTagEnd =>
          have h : (parseNodesTr opts (Nat.succ f)
              (⟨TokType.voidTagEnd, v, tl, tc⟩ :: rest) parents sid ctr).events = [] := by
            simp [parseNodesTr]
          rw [h]
          exact parentFirst_nil
        | selfClosingTagEnd =>
          have h : (parseNodesTr opts (Nat.succ f)
              (⟨TokType.selfClosingTagEnd, v, tl, tc⟩ :: rest) parents sid ctr).events = [] := by
            simp [parseNodesTr]
          rw [h]
          exact parentFirst_nil
        | attributeName =>
          have h : (parseNodesTr opts (Nat.succ f)
              (⟨TokType.attributeName, v, tl, tc⟩ :: rest) parents sid ctr).events = [] := by
            simp [parseNodesTr]
          rw [h]
          exact parentFirst_nil
        | attributeValue =>
          have h : (parseNodesTr opts (Nat.succ f)
              (⟨TokType.attributeValue, v, tl, tc⟩ :: rest) parents sid ctr).events = [] := by
            simp [parseNodesTr]
          rw [h]
          exact parentFirst_nil
        | textContent =>
          by_cases hv : (v == "") = true
          · have hres : parseNodesTr opts (Nat.succ f)
                (⟨.textContent, v, tl, tc⟩ :: rest) parents sid ctr =
                parseNodesTr opts f rest parents sid ctr := by
              simp [parseNodesTr, hv]
            rw [hres]
            exact ih.1 rest parents sid ctr hsid
          · have hres : (parseNodesTr opts (Nat.succ f)
                (⟨.textContent, v, tl, tc⟩ :: rest) parents sid ctr).events =
                (sid, SNode.text v tl tc) ::
                  (parseNodesTr opts f rest parents sid ctr).events := by
              simp [parseNodesTr, hv]
            rw [hres]
            refine parentFirst_cons (ih.1 rest parents sid ctr hsid) ?_
            intro e he k hk
            have hr := ((trRange_aux opts f).1 rest parents sid ctr).2 e he
    
            have hkr := hr.2 k hk
            omega
        | doctypeDeclaration =>
          have hres : (parseNodesTr opts (Nat.succ f)
              (⟨.doctypeDeclaration, v, tl, tc⟩ :: rest) parents sid ctr).events =
              (sid, SNode.doctype v tl tc) ::
                (parseNodesTr opts f rest parents sid ctr).events := by
            simp [parseNodesTr]
          rw [hres]
          refine parentFirst_cons (ih.1 rest parents sid ctr hsid) ?_
          intro e he k hk
          have hr := ((trRange_aux opts f).1 rest parents sid ctr).2 e he
          have hkr := hr.2 k hk
          omega
        | comment =>
          have hres : (parseNodesTr opts (Nat.succ f)
              (⟨.comment, v, tl, tc⟩ :: rest) parents sid ctr).events =
              (sid, SNode.comment v tl tc) ::
                (parseNodesTr opts f rest parents sid ctr).events := by
            simp [parseNodesTr]
          rw [hres]
          refine parentFirst_cons (ih.1 rest parents sid ctr hsid) ?_
          intro e he k hk
          have hr := ((trRange_aux opts f).1 rest parents sid ctr).2 e he
          have hkr := hr.2 k hk
          omega
        | closingTagname =>
          by_cases hm : parents.contains (applyCasing opts v) = true
          · have hres : (parseNodesTr opts (Nat.succ f)
                (⟨.closingTagname, v, tl, tc⟩ :: rest) parents sid ctr).events = [] := by
              simp only [parseNodesTr, hm, if_pos]
            rw [hres]
            exact parentFirst_nil
          · have hres : parseNodesTr opts (Nat.succ f)
                (⟨.closingTagname, v, tl, tc⟩ :: rest) parents sid ctr =
                parseNodesTr opts f rest parents sid ctr := by
              simp only [Bool.not_eq_true] at hm
              simp only [parseNodesTr, hm, Bool.false_eq_true, if_false]
            rw [hres]
            exact ih.1 rest parents sid ctr hsid
        | openingTagname =>
          cases hpo : parseOpenTr opts f (applyCasing opts v) [] tl tc rest parents sid ctr with
          | closed evs rest9 ctr9 =>
            have hres : (parseNodesTr opts (Nat.succ f)
                (⟨.openingTagname, v, tl, tc⟩ :: rest) parents sid ctr).events =
                evs ++ (parseNodesTr opts f rest9 parents sid ctr9).events := by
              simp [parseNodesTr, hpo]
            rw [hres]
            have hop := ((trRange_aux opts f).2 (applyCasing opts v) [] tl tc
              rest parents sid ctr).1 evs rest9 ctr9 hpo
            have hsid9 : sid < ctr9 := lt_of_lt_of_le hsid hop.1
            refine parentFirst_append
              ((ih.2 (applyCasing opts v) [] tl tc rest parents sid ctr hsid).1
                evs rest9 ctr9 hpo)
              (ih.1 rest9 parents sid ctr9 hsid9) ?_
            intro e he k hk ev hev
            have hr2 := ((trRange_aux opts f).1 rest9 parents sid ctr9).2 e he
            have hkr := hr2.2 k hk
            have hevr := hop.2 ev hev
            rcases hevr.1 with h1 | h1 <;> omega
          | finished evs rest9 cl9 ctr9 =>
            have hres : (parseNodesTr opts (Nat.succ f)
                (⟨.openingTagname, v, tl, tc⟩ :: rest) parents sid ctr).events = evs := by
              simp [parseNodesTr, hpo]
            rw [hres]
            exact (ih.2 (applyCasing opts v) [] tl tc rest parents sid ctr hsid).2
              evs rest9 cl9 ctr9 hpo
    · intro tn attrs el ec toks parents sid ctr hsid
      match toks with
      | [] =>
        constructor
        · intro evs rest1 ctr1 h
          simp [parseOpenTr] at h
        · intro evs rest1 cl ctr1 h
          rw [parseOpenTr] at h
          injection h with h1 h2 h3 h4
          subst h1
          exact parentFirst_nil
      | t :: rest =>
        obtain ⟨ty, v, tl, tc⟩ := t
        cases ty with
        | selfClosingTagEnd =>
          constructor
          · intro evs rest1 ctr1 h
            simp only [parseOpenTr] at h
            injection h with h1 h2 h3
            subst h1
            exact parentFirst_single _
          · intro evs rest1 cl ctr1 h
            simp [parseOpenTr] at h
        | attributeName =>
          constructor
          · intro evs rest1 ctr1 h
            simp only [parseOpenTr] at h
            exact (ih.2 tn (attrs ++ [⟨v, "", tl, tc⟩]) el ec rest parents sid ctr hsid).1
              evs rest1 ctr1 h
          · intro evs rest1 cl ctr1 h
            simp only [parseOpenTr] at h
            exact (ih.2 tn (attrs ++ [⟨v, "", tl, tc⟩]) el ec rest parents sid ctr hsid).2
              evs rest1 cl ctr1 h
        | attributeValue =>
          constructor
          · intro evs rest1 ctr1 h
            simp only [parseOpenTr] at h
            by_cases ha : attrs.isEmpty = true
            · simp only [ha, if_pos] at h
              exact absurd h (by simp)
            · simp only [Bool.not_eq_true] at ha
              simp only [ha, Bool.false_eq_true, if_false] at h
              exact (ih.2 tn (setLastAttrValue attrs v) el ec rest parents sid ctr hsid).1
                evs rest1 ctr1 h
          · intro evs rest1 cl ctr1 h
            simp only [parseOpenTr] at h
            by_cases ha : attrs.isEmpty = true
            · simp only [ha, if_pos] at h
              injection h with h1 h2 h3 h4
              subst h1
              exact parentFirst_nil
            · simp only [Bool.not_eq_true] at ha
              simp only [ha, Bool.false_eq_true, if_false] at h
              exact (ih.2 tn (setLastAttrValue attrs v) el ec rest parents sid ctr hsid).2
                evs rest1 cl ctr1 h
        | openingTagEnd =>
          have hmain : ParentFirst
              ((sid, SNode.element tn attrs (some ctr) el ec) ::
                (parseNodesTr opts f rest (parents ++ [tn]) ctr (ctr + 1)).events) := by
            refine parentFirst_cons
              (ih.1 rest (parents ++ [tn]) ctr (ctr + 1) (Nat.lt_succ_self ctr)) ?_
            intro e he k hk
            have hr := ((trRange_aux opts f).1 rest (parents ++ [tn]) ctr (ctr + 1)).2 e he
            have hkr := hr.2 k hk
            omega
          constructor
          · intro evs rest1 ctr1 h
            simp only [parseOpenTr] at h
            by_cases hcl : ((parseNodesTr opts f rest (parents ++ [tn]) ctr (ctr + 1)).closing
                == some tn) = true
            · simp only [hcl, if_pos] at h
              injection h with h1 h2 h3
              subst h1
              exact hmain
            · simp only [Bool.not_eq_true] at hcl
              simp only [hcl, Bool.false_eq_true, if_false] at h
              exact absurd h (by simp)
          · intro evs rest1 cl ctr1 h
            simp only [parseOpenTr] at h
            by_cases hcl : ((parseNodesTr opts f rest (parents ++ [tn]) ctr (ctr + 1)).closing
                == some tn) = true
            · simp only [hcl, if_pos] at h
              exact absurd h (by simp)
            · simp only [Bool.not_eq_true] at hcl
              simp only [hcl, Bool.false_eq_true, if_false] at h
              injection h with h1 h2 h3 h4
              subst h1
              exact hmain
        | eof =>
          constructor
          · intro evs rest1 ctr1 h
            simp [parseOpenTr] at h
          · intro evs rest1 cl ctr1 h
            simp only [parseOpenTr] at h
            injection h with h1 h2 h3 h4
            subst h1
            exact parentFirst_nil
        | error =>
          constructor
          · intro evs rest1 ctr1 h
            simp [parseOpenTr] at h
          · intro evs rest1 cl ctr1 h
            simp only [parseOpenTr] at h
            injection h with h1 h2 h3 h4
            subst h1
            exact parentFirst_nil
        | textContent =>
          constructor
          · intro evs rest1 ctr1 h
            simp [parseOpenTr] at h
          · intro evs rest1 cl ctr1 h
            simp only [parseOpenTr] at h
            injection h with h1 h2 h3 h4
            subst h1
            exact parentFirst_nil
        | openingTagname =>
          constructor
          · intro evs rest1 ctr1 h
            simp [parseOpenTr] at h
          · intro evs rest1 cl ctr1 h
            simp only [parseOpenTr] at h
            injection h with h1 h2 h3 h4
            subst h1
            exact parentFirst_nil
        | closingTagname =>
          constructor
          · intro evs rest1 ctr1 h
            simp [parseOpenTr] at h
          · intro evs rest1 cl ctr1 h
            simp only [parseOpenTr] at h
            injection h with h1 h2 h3 h4
            subst h1
            exact parentFirst_nil
        | voidTagEnd =>
          constructor
          · intro evs rest1 ctr1 h
            simp [parseOpenTr] at h
          · intro evs rest1 cl ctr1 h
            simp only [parseOpenTr] at h
            injection h with h1 h2 h3 h4
            subst h1
            exact parentFirst_nil
        | comment =>
          constructor
          · intro evs rest1 ctr1 h
            simp [parseOpenTr] at h
          · intro evs rest1 cl ctr1 h
            simp only [parseOpenTr] at h
            injection h with h1 h2 h3 h4
            subst h1
            exact parentFirst_nil
        | doctypeDeclaration =>
          constructor
          · intro evs rest1 ctr1 h
            simp [parseOpenTr] at h
          · intro evs rest1 cl ctr1 h
            simp only [parseOpenTr] at h
            injection h with h1 h2 h3 h4
            subst h1
            exact parentFirst_nil

/-- C8: in the instrumented builder, for every element with a body the
element node carrying its fresh child-stream id is written to the parent
stream strictly before any event on that child stream: the whole write
trace satisfies `ParentFirst` whenever the target stream predates the
fresh-id counter. -/
theorem c8_parent_written_before_children
    (opts : HTMLParserOptions) (fuel : Nat) (toks : List Tok)
    (parents : List String) (sid ctr : Nat) (h : sid < ctr) :
    ParentFirst (parseNodesTr opts fuel toks parents sid ctr).events :=
  (trPF_aux opts fuel).1 toks parents sid ctr h

/-- Witness for `c8_parent_written_before_children`: the write trace of
parsing `"<div>x</div>"` from the root stream. -/
theorem c8_parent_written_before_children_witness :
    ParentFirst (parseNodesTr defaultOptions 8
      (lexBytes defaultOptions (asciiBytes "<div>x</div>")).1 [] 0 1).events :=
  c8_parent_written_before_children defaultOptions 8
    (lexBytes defaultOptions (asciiBytes "<div>x</div>")).1 [] 0 1 (by decide)

/-! Helper lemmas for the lexer position invariant (C1). -/

theorem cpsToString_eq_empty_iff (l : List Nat) : cpsToString l = "" ↔ l = [] := by
  constructor
  · intro h
    have h2 : l.map Char.ofNat = [] := by
      have := congrArg String.data h
      simpa [cpsToString] using this
    exact List.map_eq_nil_iff.mp h2
  · intro h
    subst h
    rfl

theorem suffixNB_append_nonbreak {cp : Nat} (buf : List Nat)
    (h : isLineBreak cp = false) : suffixNB (buf ++ [cp]) = suffixNB buf + 1 := by
  simp [suffixNB, List.takeWhile_cons, h]

theorem suffixNB_append_break {cp : Nat} (buf : List Nat)
    (h : isLineBreak cp = true) : suffixNB (buf ++ [cp]) = 0 := by
  simp [suffixNB, List.takeWhile_cons, h]

theorem suffixNB_docType {buf : List Nat}
    (hdt : lastN 9 buf = docTypeCodes) : 9 ≤ suffixNB buf := by
  have hsplit : dropLastN 9 buf ++ lastN 9 buf = buf := List.take_append_drop _ buf
  have hsplit2 : buf = dropLastN 9 buf ++ docTypeCodes := by
    rw [← hdt, hsplit]
  rw [hsplit2]
  simp only [suffixNB, docTypeCodes, List.reverse_append]
  simp [List.takeWhile_cons, isLineBreak]

theorem getLast_docType {buf : List Nat} (hdt : lastN 9 buf = docTypeCodes) :
    buf.getLast? = some 69 := by
  have hsplit : dropLastN 9 buf ++ lastN 9 buf = buf := List.take_append_drop _ buf
  have hsplit2 : buf = dropLastN 9 buf ++ docTypeCodes := by
    rw [← hdt, hsplit]
  rw [hsplit2]
  rw [docTypeCodes]
  rw [show ([60, 33, 68, 79, 67, 84, 89, 80, 69] : List Nat) =
    [60, 33, 68, 79, 67, 84, 89, 80] ++ [69] from rfl]
  rw [← List.append_assoc]
  exact List.getLast?_concat _

theorem updStartP_pos {start : Option (Int × Int)} {l c : Int}
    (hst : match start with
           | none => True
           | some p => 1 ≤ p.1 ∧ 0 ≤ p.2)
    (hl : 1 ≤ l) (hc : 1 ≤ c) :
    1 ≤ (updStartP start l c).1 ∧ 1 ≤ (updStartP start l c).2 := by
  match start with
  | none => exact ⟨hl, hc⟩
  | some (a, b) =>
    simp only [updStartP]
    by_cases hz : (a == 0 || b == 0) = true
    · rw [if_pos hz]
      exact ⟨hl, hc⟩
    · rw [if_neg hz]
      simp only [Bool.or_eq_true, beq_iff_eq, not_or] at hz
      obtain ⟨hs1, hs2⟩ := hst
      exact ⟨hs1, by omega⟩

theorem pullChar_term_spec {s s1 : LexSrc} {t : Tok}
    (hs : SrcInv s) (hp : pullChar s = (.term t, s1)) :
    (t.type = .eof ∨ t.type = .error) ∧ t.l = s.line ∧ t.c = s.col ∧ 1 ≤ t.l := by
  have main : ∀ s' : LexSrc, s'.line = s.line → s'.col = s.col →
      ∀ u u1, pullRead s' = (.term u, u1) →
      (u.type = .eof ∨ u.type = .error) ∧ u.l = s.line ∧ u.c = s.col ∧ 1 ≤ u.l := by
    intro s' hl hc u u1 hr
    rw [pullRead] at hr
    rcases hd : decodeNext s'.wide s'.input with ⟨d, r⟩
    rw [hd] at hr
    cases d with
    | eofD =>
      simp only [] at hr
      injection hr with h1 h2
      injection h1 with h1t
      rw [← h1t]
      exact ⟨Or.inl rfl, hl, hc, by rw [hl]; exact hs.1⟩
    | errD m =>
      simp only [] at hr
      injection hr with h1 h2
      injection h1 with h1t
      rw [← h1t]
      exact ⟨Or.inr rfl, hl, hc, by rw [hl]; exact hs.1⟩
    | okD cp =>
      simp only [pullFinish] at hr
      by_cases hb : isLineBreak cp = true
      · rw [if_pos hb] at hr
        injection hr with h1 h2
        exact absurd h1 (by simp)
      · rw [if_neg hb] at hr
        injection hr with h1 h2
        exact absurd h1 (by simp)
  rcases hlr : s.lastRead with _ | cp
  · rw [pullChar] at hp
    rw [hlr] at hp
    exact main s rfl rfl t s1 hp
  · rw [pullChar] at hp
    rw [hlr] at hp
    simp only [] at hp
    by_cases hu : s.hasUnread = true
    · rw [if_pos hu] at hp
      simp only [pullFinish] at hp
      by_cases hb : isLineBreak cp = true
      · rw [if_pos hb] at hp
        injection hp with h1 h2
        exact absurd h1 (by simp)
      · rw [if_neg hb] at hp
        injection hp with h1 h2
        exact absurd h1 (by simp)
    · rw [if_neg hu] at hp
      exact main s rfl rfl t s1 hp

theorem pullChar_char_spec {s s1 : LexSrc} {cp : Nat} {l c : Int}
    (hs : SrcInv s) (hp : pullChar s = (.char cp l c, s1)) :
    1 ≤ l ∧ 1 ≤ c ∧ SrcInv s1 ∧ s1.line = l ∧
    (isLineBreak cp = true → s1.col = 0 ∧ c = 1) ∧
    (isLineBreak cp = false → s1.col = c ∧ c = s.col + 1) := by
  obtain ⟨a1, a2, a3, a4⟩ := hs
  have fin : ∀ (cp0 : Nat) (s' : LexSrc), s'.line = s.line → s'.col = s.col →
      pullFinish cp0 s' = (.char cp l c, s1) →
      1 ≤ l ∧ 1 ≤ c ∧ SrcInv s1 ∧ s1.line = l ∧
      (isLineBreak cp = true → s1.col = 0 ∧ c = 1) ∧
      (isLineBreak cp = false → s1.col = c ∧ c = s.col + 1) := by
    intro cp0 s' hl hc hf
    simp only [pullFinish] at hf
    by_cases hb : isLineBreak cp0 = true
    · rw [if_pos hb] at hf
      injection hf with h1 h2
      injection h1 with hcp hll hcc
      subst hcp
      subst hll
      subst hcc
      subst h2
      refine ⟨by omega, by omega, ?_, rfl, fun _ => ⟨rfl, rfl⟩, ?_⟩
      · refine ⟨?_, ?_, ?_, ?_⟩
        · show (1 : Int) ≤ s'.line + 1
          omega
        · show (0 : Int) ≤ 0
          omega
        · show (1 : Int) ≤ s'.line
          omega
        · show (0 : Int) ≤ s'.col
          omega
      · intro hnb
        rw [hnb] at hb
        exact absurd hb (by simp)
    · rw [if_neg hb] at hf
      injection hf with h1 h2
      injection h1 with hcp hll hcc
      subst hcp
      subst hll
      subst hcc
      subst h2
      refine ⟨by omega, by omega, ?_, rfl, ?_, fun _ => ⟨rfl, by rw [← hc]⟩⟩
      · refine ⟨?_, ?_, ?_, ?_⟩
        · show (1 : Int) ≤ s'.line
          omega
        · show (0 : Int) ≤ s'.col + 1
          omega
        · show (1 : Int) ≤ s'.line
          omega
        · show (0 : Int) ≤ s'.col
          omega
      · intro hbr
        exact absurd hbr hb
  have main : ∀ s' : LexSrc, s'.line = s.line → s'.col = s.col →
      pullRead s' = (.char cp l c, s1) →
      1 ≤ l ∧ 1 ≤ c ∧ SrcInv s1 ∧ s1.line = l ∧
      (isLineBreak cp = true → s1.col = 0 ∧ c = 1) ∧
      (isLineBreak cp = false → s1.col = c ∧ c = s.col + 1) := by
    intro s' hl hc hr
    rw [pullRead] at hr
    rcases hd : decodeNext s'.wide s'.input with ⟨d, r⟩
    rw [hd] at hr
    cases d with
    | eofD =>
      simp only [] at hr
      injection hr with h1 h2
      exact absurd h1 (by simp)
    | errD m =>
      simp only [] at hr
      injection hr with h1 h2
      exact absurd h1 (by simp)
    | okD cp0 =>
      simp only [] at hr
      exact fin cp0 { s' with input := r }
        (by show s'.line = s.line; exact hl)
        (by show s'.col = s.col; exact hc) hr
  rcases hlr : s.lastRead with _ | cp1
  · rw [pullChar] at hp
    rw [hlr] at hp
    exact main s rfl rfl hp
  · rw [pullChar] at hp
    rw [hlr] at hp
    simp only [] at hp
    by_cases hu : s.hasUnread = true
    · rw [if_pos hu] at hp
      exact fin cp1 { s with hasUnread := false } rfl rfl hp
    · rw [if_neg hu] at hp
      exact main s rfl rfl hp

theorem unreadChar_none_spec {s s1 : LexSrc} (hs : SrcInv s)
    (hu : unreadChar s = (none, s1)) :
    SrcInv s1 ∧ s1.line = s.lastLine ∧ s1.col = s.lastCol := by
  rw [unreadChar] at hu
  by_cases hh : (!s.hasUnread) = true
  · rw [if_pos hh] at hu
    injection hu with h1 h2
    rw [← h2]
    obtain ⟨a, b, c, d⟩ := hs
    exact ⟨⟨by simpa using c, by simpa using d, by simpa using c, by simpa using d⟩,
      by simp, by simp⟩
  · rw [if_neg hh] at hu
    injection hu with h1 h2
    exact absurd h1 (by simp)

theorem unreadChar_some_spec {s s1 : LexSrc} {e : Tok} (hs : SrcInv s)
    (hu : unreadChar s = (some e, s1)) : TokPosOK e := by
  rw [unreadChar] at hu
  by_cases hh : (!s.hasUnread) = true
  · rw [if_pos hh] at hu
    injection hu with h1 h2
    exact absurd h1 (by simp)
  · rw [if_neg hh] at hu
    injection hu with h1 h2
    injection h1 with h1t
    rw [← h1t]
    refine ⟨hs.1, ?_, ?_⟩
    · intro hg
      simp [goodColType] at hg
    · intro ht
      simp at ht

theorem tokPosOK_term {s s1 : LexSrc} {t : Tok}
    (hs : SrcInv s) (hp : pullChar s = (.term t, s1)) : TokPosOK t := by
  obtain ⟨hty, _, _, h1⟩ := pullChar_term_spec hs hp
  refine ⟨h1, ?_, ?_⟩
  · intro hg
    rcases hty with h | h <;> rw [h] at hg <;> simp [goodColType] at hg
  · intro ht
    rcases hty with h | h <;> rw [h] at ht <;> simp at ht

theorem tokPosOK_good {ty : TokType} {v : String} {p1 p2 : Int}
    (h1 : 1 ≤ p1) (h2 : 1 ≤ p2) : TokPosOK ⟨ty, v, p1, p2⟩ :=
  ⟨h1, fun _ => h2, fun _ _ => h2⟩

theorem tokPosOK_text {v : String} {p1 p2 : Int}
    (h1 : 1 ≤ p1) (h2 : v ≠ "" → 1 ≤ p2) :
    TokPosOK ⟨.textContent, v, p1, p2⟩ :=
  ⟨h1, fun hg => by simp [goodColType] at hg, fun _ => h2⟩

theorem tokPosOK_closing {v : String} {p1 p2 : Int} (h1 : 1 ≤ p1) :
    TokPosOK ⟨.closingTagname, v, p1, p2⟩ :=
  ⟨h1, fun hg => by simp [goodColType] at hg, fun ht => by simp at ht⟩

theorem stInv_text_fresh (s : LexSrc) (hs : SrcInv s) : StInv (.text none none []) s := by
  refine ⟨rfl, ?_, ?_⟩
  · show ((suffixNB [] : Nat) : Int) ≤ s.col
    have : suffixNB ([] : List Nat) = 0 := rfl
    rw [this]
    exact le_trans (by omega) hs.2.1
  · exact trivial

/-! One-step invariant lemmas, one per lexer state. -/

theorem stepOK_closeEnd (opts : HTMLParserOptions) (s : LexSrc)
    (hs : SrcInv s) : StepOK opts .closeEnd s := by
  rcases hp : pullChar s with ⟨pr, s1⟩
  cases pr with
  | term t =>
    simp only [StepOK, lexStep, hp]
    refine ⟨?_, ?_⟩
    · intro tk htk
      rcases List.mem_singleton.mp htk with h
      subst h
      exact tokPosOK_term hs hp
    · intro st1 hst1
      exact absurd hst1 (by simp)
  | char cp l c =>
    obtain ⟨hl, hc, hs1, _, _, _⟩ := pullChar_char_spec hs hp
    by_cases hgt : (cp == 62) = true
    · simp only [StepOK, lexStep, hp, hgt, if_pos]
      refine ⟨?_, ?_⟩
      · intro tk htk
        simp at htk
      · intro st1 hst1
        injection hst1 with h1
        subst h1
        exact ⟨stInv_text_fresh s1 hs1, hs1⟩
    · simp only [Bool.not_eq_true] at hgt
      simp only [StepOK, lexStep, hp, hgt, Bool.false_eq_true, if_false]
      refine ⟨?_, ?_⟩
      · intro tk htk
        simp at htk
      · intro st1 hst1
        injection hst1 with h1
        subst h1
        exact ⟨trivial, hs1⟩

theorem stepOK_doctypeSt (opts : HTMLParserOptions) (sl sc : Int) (buf : List Nat)
    (s : LexSrc) (hst : StInv (.doctypeSt sl sc buf) s) (hs : SrcInv s) :
    StepOK opts (.doctypeSt sl sc buf) s := by
  obtain ⟨hd1, hd2⟩ := hst
  rcases hp : pullChar s with ⟨pr, s1⟩
  cases pr with
  | term t =>
    simp only [StepOK, lexStep, hp]
    refine ⟨?_, ?_⟩
    · intro tk htk
      rcases List.mem_singleton.mp htk with h
      subst h
      exact tokPosOK_term hs hp
    · intro st1 hst1
      exact absurd hst1 (by simp)
  | char cp l c =>
    obtain ⟨hl, hc, hs1, _, _, _⟩ := pullChar_char_spec hs hp
    by_cases hgt : (cp == 62) = true
    · simp only [StepOK, lexStep, hp, hgt, if_pos]
      refine ⟨?_, ?_⟩
      · intro tk htk
        rcases List.mem_singleton.mp htk with h
        subst h
        exact tokPosOK_good hd1 hd2
      · intro st1 hst1
        injection hst1 with h1
        subst h1
        exact ⟨stInv_text_fresh s1 hs1, hs1⟩
    · simp only [Bool.not_eq_true] at hgt
      simp only [StepOK, lexStep, hp, hgt, Bool.false_eq_true, if_false]
      refine ⟨?_, ?_⟩
      · intro tk htk
        simp at htk
      · intro st1 hst1
        injection hst1 with h1
        subst h1
        exact ⟨⟨hd1, hd2⟩, hs1⟩

theorem stepOK_openAttrs (opts : HTMLParserOptions) (tag : List Nat)
    (prev : Option Nat) (s : LexSrc) (hs : SrcInv s) :
    StepOK opts (.openAttrs tag prev) s := by
  rcases hp : pullChar s with ⟨pr, s1⟩
  cases pr with
  | term t =>
    simp only [StepOK, lexStep, hp]
    refine ⟨?_, ?_⟩
    · intro tk htk
      rcases List.mem_singleton.mp htk with h
      subst h
      exact tokPosOK_term hs hp
    · intro st1 hst1
      exact absurd hst1 (by simp)
  | char cp l c =>
    obtain ⟨hl, hc, hs1, _, _, _⟩ := pullChar_char_spec hs hp
    by_cases hw : (!isWhitespace cp) = true
    · by_cases hgt : (cp == 62) = true
      · by_cases hsc : (isVoidElementTagname (cpsToString tag) ||
            (!opts.ignoreSelfClosingSyntax && prev == some 47)) = true
        · simp only [StepOK, lexStep, hp, hw, hgt, hsc, if_pos]
          refine ⟨?_, ?_⟩
          · intro tk htk
            rcases List.mem_singleton.mp htk with h
            subst h
            exact tokPosOK_good hl hc
          · intro st1 hst1
            injection hst1 with h1
            subst h1
            exact ⟨stInv_text_fresh s1 hs1, hs1⟩
        · simp only [Bool.not_eq_true] at hsc
          by_cases hraw : isRawTextContentElementTagname (cpsToString tag) = true
          · simp only [StepOK, lexStep, hp, hw, hgt, hsc, hraw,
              Bool.false_eq_true, if_false, if_pos]
            refine ⟨?_, ?_⟩
            · intro tk htk
              rcases List.mem_singleton.mp htk with h
              subst h
              exact tokPosOK_good hl hc
            · intro st1 hst1
              injection hst1 with h1
              subst h1
              exact ⟨trivial, hs1⟩
          · simp only [Bool.not_eq_true] at hraw
            simp only [StepOK, lexStep, hp, hw, hgt, hsc, hraw,
              Bool.false_eq_true, if_false, if_pos]
            refine ⟨?_, ?_⟩
            · intro tk htk
              rcases List.mem_singleton.mp htk with h
              subst h
              exact tokPosOK_good hl hc
            · intro st1 hst1
              injection hst1 with h1
              subst h1
              exact ⟨stInv_text_fresh s1 hs1, hs1⟩
      · simp only [Bool.not_eq_true] at hgt
        by_cases han : isLegalAttributeNameChar cp = true
        · rcases hu : unreadChar s1 with ⟨o, s2⟩
          cases o with
          | some e =>
            simp only [StepOK, lexStep, hp, hw, hgt, han, hu,
              Bool.false_eq_true, if_false, if_pos]
            refine ⟨?_, ?_⟩
            · intro tk htk
              rcases List.mem_singleton.mp htk with h
              subst h
              exact unreadChar_some_spec hs1 hu
            · intro st1 hst1
              exact absurd hst1 (by simp)
          | none =>
            obtain ⟨hs2, _, _⟩ := unreadChar_none_spec hs1 hu
            simp only [StepOK, lexStep, hp, hw, hgt, han, hu,
              Bool.false_eq_true, if_false, if_pos]
            refine ⟨?_, ?_⟩
            · intro tk htk
              simp at htk
            · intro st1 hst1
              injection hst1 with h1
              subst h1
              exact ⟨trivial, hs2⟩
        · simp only [Bool.not_eq_true] at han
          simp only [StepOK, lexStep, hp, hw, hgt, han,
            Bool.false_eq_true, if_false]
          refine ⟨?_, ?_⟩
          · intro tk htk
            simp at htk
          · intro st1 hst1
            injection hst1 with h1
            subst h1
            exact ⟨trivial, hs1⟩
    · simp only [Bool.not_eq_true] at hw
      simp only [StepOK, lexStep, hp, hw, Bool.false_eq_true, if_false]
      refine ⟨?_, ?_⟩
      · intro tk htk
        simp at htk
      · intro st1 hst1
        injection hst1 with h1
        subst h1
        exact ⟨trivial, hs1⟩

theorem startOKg_weak {start : Option (Int × Int)} :
    startOKg start →
    (match start with
     | none => True
     | some p => 1 ≤ p.1 ∧ 0 ≤ p.2 : Prop) := by
  cases start with
  | none => exact fun _ => trivial
  | some p =>
    obtain ⟨a, b⟩ := p
    exact fun h => ⟨h.1, by have := h.2; omega⟩

theorem stepOK_openName (opts : HTMLParserOptions) (start : Option (Int × Int))
    (buf : List Nat) (s : LexSrc) (hst : StInv (.openName start buf) s)
    (hs : SrcInv s) : StepOK opts (.openName start buf) s := by
  rcases hp : pullChar s with ⟨pr, s1⟩
  cases pr with
  | term t =>
    simp only [StepOK, lexStep, hp]
    refine ⟨?_, ?_⟩
    · intro tk htk
      rcases List.mem_singleton.mp htk with h
      subst h
      exact tokPosOK_term hs hp
    · intro st1 hst1
      exact absurd hst1 (by simp)
  | char cp l c =>
    obtain ⟨hl, hc, hs1, _, _, _⟩ := pullChar_char_spec hs hp
    have hpp := updStartP_pos (startOKg_weak hst) hl hc
    by_cases hleg : isLegalTagNameChar cp = true
    · simp only [StepOK, lexStep, hp, hleg, if_pos]
      refine ⟨?_, ?_⟩
      · intro tk htk
        simp at htk
      · intro st1 hst1
        injection hst1 with h1
        subst h1
        exact ⟨hpp, hs1⟩
    · simp only [Bool.not_eq_true] at hleg
      rcases hu : unreadChar s1 with ⟨o, s2⟩
      cases o with
      | some e =>
        simp only [StepOK, lexStep, hp, hleg, hu, Bool.false_eq_true, if_false]
        refine ⟨?_, ?_⟩
        · intro tk htk
          rcases List.mem_singleton.mp htk with h
          subst h
          exact unreadChar_some_spec hs1 hu
        · intro st1 hst1
          exact absurd hst1 (by simp)
      | none =>
        obtain ⟨hs2, _, _⟩ := unreadChar_none_spec hs1 hu
        simp only [StepOK, lexStep, hp, hleg, hu, Bool.false_eq_true, if_false]
        refine ⟨?_, ?_⟩
        · intro tk htk
          rcases List.mem_singleton.mp htk with h
          subst h
          exact tokPosOK_good hpp.1 hpp.2
        · intro st1 hst1
          injection hst1 with h1
          subst h1
          exact ⟨trivial, hs2⟩

theorem stepOK_attrName (opts : HTMLParserOptions) (tag : List Nat) (ret : Nat)
    (start : Option (Int × Int)) (buf : List Nat) (s : LexSrc)
    (hst : StInv (.attrName tag ret start buf) s) (hs : SrcInv s) :
    StepOK opts (.attrName tag ret start buf) s := by
  rcases hp : pullChar s with ⟨pr, s1⟩
  cases pr with
  | term t =>
    simp only [StepOK, lexStep, hp]
    refine ⟨?_, ?_⟩
    · intro tk htk
      rcases List.mem_singleton.mp htk with h
      subst h
      exact tokPosOK_term hs hp
    · intro st1 hst1
      exact absurd hst1 (by simp)
  | char cp l c =>
    obtain ⟨hl, hc, hs1, _, _, _⟩ := pullChar_char_spec hs hp
    have hpp := updStartP_pos (startOKg_weak hst) hl hc
    by_cases hleg : (!isLegalAttributeNameChar cp) = true
    · rcases hu : unreadChar s1 with ⟨o, s2⟩
      cases o with
      | some e =>
        simp only [StepOK, lexStep, hp, hleg, hu, if_pos]
        refine ⟨?_, ?_⟩
        · intro tk htk
          rcases List.mem_singleton.mp htk with h
          subst h
          exact unreadChar_some_spec hs1 hu
        · intro st1 hst1
          exact absurd hst1 (by simp)
      | none =>
        obtain ⟨hs2, _, _⟩ := unreadChar_none_spec hs1 hu
        simp only [StepOK, lexStep, hp, hleg, hu, if_pos]
        refine ⟨?_, ?_⟩
        · intro tk htk
          rcases List.mem_singleton.mp htk with h
          subst h
          exact tokPosOK_good hpp.1 hpp.2
        · intro st1 hst1
          injection hst1 with h1
          subst h1
          exact ⟨trivial, hs2⟩
    · simp only [Bool.not_eq_true] at hleg
      simp only [StepOK, lexStep, hp, hleg, Bool.false_eq_true, if_false]
      refine ⟨?_, ?_⟩
      · intro tk htk
        simp at htk
      · intro st1 hst1
        injection hst1 with h1
        subst h1
        exact ⟨hpp, hs1⟩

theorem stepOK_unquotedVal (opts : HTMLParserOptions) (tag : List Nat) (ret : Nat)
    (start : Option (Int × Int)) (buf : List Nat) (s : LexSrc)
    (hst : StInv (.unquotedVal tag ret start buf) s) (hs : SrcInv s) :
    StepOK opts (.unquotedVal tag ret start buf) s := by
  rcases hp : pullChar s with ⟨pr, s1⟩
  cases pr with
  | term t =>
    simp only [StepOK, lexStep, hp]
    refine ⟨?_, ?_⟩
    · intro tk htk
      rcases List.mem_singleton.mp htk with h
      subst h
      exact tokPosOK_term hs hp
    · intro st1 hst1
      exact absurd hst1 (by simp)
  | char cp l c =>
    obtain ⟨hl, hc, hs1, _, _, _⟩ := pullChar_char_spec hs hp
    have hpp := updStartP_pos (startOKg_weak hst) hl hc
    by_cases hleg : (!isLegalUnquotedAttributeValueChar cp) = true
    · rcases hu : unreadChar s1 with ⟨o, s2⟩
      cases o with
      | some e =>
        simp only [StepOK, lexStep, hp, hleg, hu, if_pos]
        refine ⟨?_, ?_⟩
        · intro tk htk
          rcases List.mem_singleton.mp htk with h
          subst h
          exact unreadChar_some_spec hs1 hu
        · intro st1 hst1
          exact absurd hst1 (by simp)
      | none =>
        obtain ⟨hs2, _, _⟩ := unreadChar_none_spec hs1 hu
        simp only [StepOK, lexStep, hp, hleg, hu, if_pos]
        refine ⟨?_, ?_⟩
        · intro tk htk
          rcases List.mem_singleton.mp htk with h
          subst h
          exact tokPosOK_good hpp.1 hpp.2
        · intro st1 hst1
          injection hst1 with h1
          subst h1
          exact ⟨trivial, hs2⟩
    · simp only [Bool.not_eq_true] at hleg
      simp only [StepOK, lexStep, hp, hleg, Bool.false_eq_true, if_false]
      refine ⟨?_, ?_⟩
      · intro tk htk
        simp at htk
      · intro st1 hst1
        injection hst1 with h1
        subst h1
        exact ⟨hpp, hs1⟩

theorem stepOK_closeName (opts : HTMLParserOptions)
    (start : Option (Int × Int)) (buf : List Nat) (s : LexSrc)
    (hst : StInv (.closeName start buf) s) (hs : SrcInv s) :
    StepOK opts (.closeName start buf) s := by
  rcases hp : pullChar s with ⟨pr, s1⟩
  cases pr with
  | term t =>
    simp only [StepOK, lexStep, hp]
    refine ⟨?_, ?_⟩
    · intro tk htk
      rcases List.mem_singleton.mp htk with h
      subst h
      exact tokPosOK_term hs hp
    · intro st1 hst1
      exact absurd hst1 (by simp)
  | char cp l c =>
    obtain ⟨hl, hc, hs1, _, _, _⟩ := pullChar_char_spec hs hp
    have hpp := updStartP_pos (startOKg_weak hst) hl hc
    by_cases hleg : (!isLegalTagNameChar cp) = true
    · rcases hu : unreadChar s1 with ⟨o, s2⟩
      cases o with
      | some e =>
        simp only [StepOK, lexStep, hp, hleg, hu, if_pos]
        refine ⟨?_, ?_⟩
        · intro tk htk
          rcases List.mem_singleton.mp htk with h
          subst h
          exact unreadChar_some_spec hs1 hu
        · intro st1 hst1
          exact absurd hst1 (by simp)
      | none =>
        obtain ⟨hs2, _, _⟩ := unreadChar_none_spec hs1 hu
        simp only [StepOK, lexStep, hp, hleg, hu, if_pos]
        refine ⟨?_, ?_⟩
        · intro tk htk
          rcases List.mem_singleton.mp htk with h
          subst h
          exact tokPosOK_closing hpp.1
        · intro st1 hst1
          injection hst1 with h1
          subst h1
          exact ⟨trivial, hs2⟩
    · simp only [Bool.not_eq_true] at hleg
      simp only [StepOK, lexStep, hp, hleg, Bool.false_eq_true, if_false]
      refine ⟨?_, ?_⟩
      · intro tk htk
        simp at htk
      · intro st1 hst1
        injection hst1 with h1
        subst h1
        exact ⟨hpp, hs1⟩

theorem stepOK_afterAttrName (opts : HTMLParserOptions) (tag : List Nat)
    (ret : Nat) (s : LexSrc) (hs : SrcInv s) :
    StepOK opts (.afterAttrName tag ret) s := by
  rcases hp : pullChar s with ⟨pr, s1⟩
  cases pr with
  | term t =>
    simp only [StepOK, lexStep, hp]
    refine ⟨?_, ?_⟩
    · intro tk htk
      rcases List.mem_singleton.mp htk with h
      subst h
      exact tokPosOK_term hs hp
    · intro st1 hst1
      exact absurd hst1 (by simp)
  | char cp l c =>
    obtain ⟨hl, hc, hs1, _, _, _⟩ := pullChar_char_spec hs hp
    by_cases heq : (cp == 61) = true
    · rcases hp2 : pullChar s1 with ⟨pr2, s2⟩
      cases pr2 with
      | term t2 =>
        simp only [StepOK, lexStep, hp, heq, hp2, if_pos]
        refine ⟨?_, ?_⟩
        · intro tk htk
          rcases List.mem_singleton.mp htk with h
          subst h
          exact tokPosOK_term hs1 hp2
        · intro st1 hst1
          exact absurd hst1 (by simp)
      | char cp2 l2 c2 =>
        obtain ⟨_, _, hs2, _, _, _⟩ := pullChar_char_spec hs1 hp2
        rcases hu : unreadChar s2 with ⟨o, s3⟩
        cases o with
        | some e =>
          simp only [StepOK, lexStep, hp, heq, hp2, hu, if_pos]
          refine ⟨?_, ?_⟩
          · intro tk htk
            rcases List.mem_singleton.mp htk with h
            subst h
            exact unreadChar_some_spec hs2 hu
          · intro st1 hst1
            exact absurd hst1 (by simp)
        | none =>
          obtain ⟨hs3, _, _⟩ := unreadChar_none_spec hs2 hu
          by_cases hq : isAttributeValueQuoteChar cp2 = true
          · simp only [StepOK, lexStep, hp, heq, hp2, hu, hq, if_pos]
            refine ⟨?_, ?_⟩
            · intro tk htk
              simp at htk
            · intro st1 hst1
              injection hst1 with h1
              subst h1
              exact ⟨trivial, hs3⟩
          · simp only [Bool.not_eq_true] at hq
            by_cases hun : isLegalUnquotedAttributeValueChar cp2 = true
            · simp only [StepOK, lexStep, hp, heq, hp2, hu, hq, hun,
                Bool.false_eq_true, if_false, if_pos]
              refine ⟨?_, ?_⟩
              · intro tk htk
                simp at htk
              · intro st1 hst1
                injection hst1 with h1
                subst h1
                exact ⟨trivial, hs3⟩
            · simp only [Bool.not_eq_true] at hun
              simp only [StepOK, lexStep, hp, heq, hp2, hu, hq, hun,
                Bool.false_eq_true, if_false]
              refine ⟨?_, ?_⟩
              · intro tk htk
                simp at htk
              · intro st1 hst1
                injection hst1 with h1
                subst h1
                exact ⟨trivial, hs3⟩
    · simp only [Bool.not_eq_true] at heq
      rcases hu : unreadChar s1 with ⟨o, s2⟩
      cases o with
      | some e =>
        simp only [StepOK, lexStep, hp, heq, hu, Bool.false_eq_true, if_false]
        refine ⟨?_, ?_⟩
        · intro tk htk
          rcases List.mem_singleton.mp htk with h
          subst h
          exact unreadChar_some_spec hs1 hu
        · intro st1 hst1
          exact absurd hst1 (by simp)
      | none =>
        obtain ⟨hs2, _, _⟩ := unreadChar_none_spec hs1 hu
        simp only [StepOK, lexStep, hp, heq, hu, Bool.false_eq_true, if_false]
        refine ⟨?_, ?_⟩
        · intro tk htk
          simp at htk
        · intro st1 hst1
          injection hst1 with h1
          subst h1
          exact ⟨trivial, hs2⟩

theorem stepOK_quotedVal (opts : HTMLParserOptions) (tag : List Nat) (ret : Nat)
    (q : Option (Nat × Int × Int)) (esc : Bool) (buf : List Nat) (s : LexSrc)
    (hst : StInv (.quotedVal tag ret q esc buf) s) (hs : SrcInv s) :
    StepOK opts (.quotedVal tag ret q esc buf) s := by
  rcases hp : pullChar s with ⟨pr, s1⟩
  cases pr with
  | term t =>
    simp only [StepOK, lexStep, hp]
    refine ⟨?_, ?_⟩
    · intro tk htk
      rcases List.mem_singleton.mp htk with h
      subst h
      exact tokPosOK_term hs hp
    · intro st1 hst1
      exact absurd hst1 (by simp)
  | char cp l c =>
    obtain ⟨hl, hc, hs1, _, _, _⟩ := pullChar_char_spec hs hp
    rcases hq : q with _ | ⟨qc, sl, sc⟩
    · simp only [StepOK, lexStep, hp]
      refine ⟨?_, ?_⟩
      · intro tk htk
        simp at htk
      · intro st1 hst1
        injection hst1 with h1
        subst h1
        exact ⟨⟨hl, hc⟩, hs1⟩
    · rw [hq] at hst
      obtain ⟨hql, hqc⟩ := hst
      by_cases hz : (sl == 0 || sc == 0 || qc == 0) = true
      · simp only [StepOK, lexStep, hp, hz, if_pos]
        refine ⟨?_, ?_⟩
        · intro tk htk
          simp at htk
        · intro st1 hst1
          injection hst1 with h1
          subst h1
          exact ⟨⟨hl, hc⟩, hs1⟩
      · by_cases hesc : (cp == 92 && !esc) = true
        · simp only [StepOK, lexStep, hp, hz, hesc, Bool.false_eq_true, if_false, if_pos]
          refine ⟨?_, ?_⟩
          · intro tk htk
            simp at htk
          · intro st1 hst1
            injection hst1 with h1
            subst h1
            exact ⟨⟨hql, hqc⟩, hs1⟩
        · simp only [Bool.not_eq_true] at hesc
          by_cases hcq : (cp == qc && !esc) = true
          · rcases hu : unreadChar s1 with ⟨o, s2⟩
            cases o with
            | some e =>
              simp only [StepOK, lexStep, hp, hz, hesc, hcq, hu,
                Bool.false_eq_true, if_false, if_pos]
              refine ⟨?_, ?_⟩
              · intro tk htk
                rcases List.mem_singleton.mp htk with h
                subst h
                exact unreadChar_some_spec hs1 hu
              · intro st1 hst1
                exact absurd hst1 (by simp)
            | none =>
              obtain ⟨hs2, _, _⟩ := unreadChar_none_spec hs1 hu
              simp only [StepOK, lexStep, hp, hz, hesc, hcq, hu,
                Bool.false_eq_true, if_false, if_pos]
              refine ⟨?_, ?_⟩
              · intro tk htk
                rcases List.mem_singleton.mp htk with h
                subst h
                exact tokPosOK_good hql hqc
              · intro st1 hst1
                injection hst1 with h1
                subst h1
                exact ⟨trivial, hs2⟩
          · simp only [Bool.not_eq_true] at hcq
            simp only [StepOK, lexStep, hp, hz, hesc, hcq,
              Bool.false_eq_true, if_false]
            refine ⟨?_, ?_⟩
            · intro tk htk
              simp at htk
            · intro st1 hst1
              injection hst1 with h1
              subst h1
              exact ⟨⟨hql, hqc⟩, hs1⟩

theorem stepOK_commentSt (opts : HTMLParserOptions)
    (start : Option (Int × Int)) (buf : List Nat) (s : LexSrc)
    (hst : StInv (.commentSt start buf) s) (hs : SrcInv s) :
    StepOK opts (.commentSt start buf) s := by
  rcases hp : pullChar s with ⟨pr, s1⟩
  cases pr with
  | term t =>
    simp only [StepOK, lexStep, hp]
    refine ⟨?_, ?_⟩
    · intro tk htk
      rcases List.mem_singleton.mp htk with h
      subst h
      exact tokPosOK_term hs hp
    · intro st1 hst1
      exact absurd hst1 (by simp)
  | char cp l c =>
    obtain ⟨hl, hc, hs1, _, _, _⟩ := pullChar_char_spec hs hp
    have hpp := updStartP_pos (startOKg_weak hst) hl hc
    by_cases hcm : (cp == 62 && decide (buf.length ≥ 2) && (lastN 2 buf == [45, 45])) = true
    · simp only [StepOK, lexStep, hp, hcm, if_pos]
      refine ⟨?_, ?_⟩
      · intro tk htk
        rcases List.mem_singleton.mp htk with h
        subst h
        exact tokPosOK_good hpp.1 hpp.2
      · intro st1 hst1
        injection hst1 with h1
        subst h1
        exact ⟨stInv_text_fresh s1 hs1, hs1⟩
    · simp only [Bool.not_eq_true] at hcm
      simp only [StepOK, lexStep, hp, hcm, Bool.false_eq_true, if_false]
      refine ⟨?_, ?_⟩
      · intro tk htk
        simp at htk
      · intro st1 hst1
        injection hst1 with h1
        subst h1
        exact ⟨hpp, hs1⟩

theorem stepOK_rawSt (opts : HTMLParserOptions) (tag : List Nat)
    (start : Option (Int × Int)) (q : Option Nat) (esc : Bool) (buf : List Nat)
    (s : LexSrc) (hst : StInv (.rawSt tag start q esc buf) s) (hs : SrcInv s) :
    StepOK opts (.rawSt tag start q esc buf) s := by
  rcases hp : pullChar s with ⟨pr, s1⟩
  cases pr with
  | term t =>
    simp only [StepOK, lexStep, hp]
    refine ⟨?_, ?_⟩
    · intro tk htk
      rcases List.mem_singleton.mp htk with h
      subst h
      exact tokPosOK_term hs hp
    · intro st1 hst1
      exact absurd hst1 (by simp)
  | char cp l c =>
    obtain ⟨hl, hc, hs1, _, _, _⟩ := pullChar_char_spec hs hp
    have hpp := updStartP_pos (startOKg_weak hst) hl hc
    rcases hq : q with _ | qc
    · by_cases hqc : ((cpsToString tag == "script") && isScriptQuoteChar cp ||
          (cpsToString tag == "style") && isStyleQuoteChar cp) = true
      · simp only [StepOK, lexStep, hp, hqc, if_pos]
        refine ⟨?_, ?_⟩
        · intro tk htk
          simp at htk
        · intro st1 hst1
          injection hst1 with h1
          subst h1
          exact ⟨hpp, hs1⟩
      · simp only [Bool.not_eq_true] at hqc
        by_cases hm : (!isLegalTagNameChar cp &&
            decide (buf.length ≥ (60 :: 47 :: tag).length) &&
            (lastN (60 :: 47 :: tag).length buf == 60 :: 47 :: tag)) = true
        · rcases hu : unreadChar s1 with ⟨o, s2⟩
          cases o with
          | some e =>
            simp only [StepOK, lexStep, hp, hqc, hm, hu,
              Bool.false_eq_true, if_false, if_pos]
            refine ⟨?_, ?_⟩
            · intro tk htk
              rcases List.mem_singleton.mp htk with h
              subst h
              exact unreadChar_some_spec hs1 hu
            · intro st1 hst1
              exact absurd hst1 (by simp)
          | none =>
            obtain ⟨hs2, _, _⟩ := unreadChar_none_spec hs1 hu
            simp only [StepOK, lexStep, hp, hqc, hm, hu,
              Bool.false_eq_true, if_false, if_pos]
            refine ⟨?_, ?_⟩
            · intro tk htk
              rcases List.mem_cons.mp htk with h | h
              · subst h
                exact tokPosOK_good hpp.1 hpp.2
              · rcases List.mem_singleton.mp h with h1
                subst h1
                exact tokPosOK_closing hl
            · intro st1 hst1
              injection hst1 with h1
              subst h1
              exact ⟨trivial, hs2⟩
        · simp only [Bool.not_eq_true] at hm
          simp only [StepOK, lexStep, hp, hqc, hm, Bool.false_eq_true, if_false]
          refine ⟨?_, ?_⟩
          · intro tk htk
            simp at htk
          · intro st1 hst1
            injection hst1 with h1
            subst h1
            exact ⟨hpp, hs1⟩
    · by_cases he1 : (cp == 92 && !esc) = true
      · simp only [StepOK, lexStep, hp, he1, if_pos]
        refine ⟨?_, ?_⟩
        · intro tk htk
          simp at htk
        · intro st1 hst1
          injection hst1 with h1
          subst h1
          exact ⟨hpp, hs1⟩
      · simp only [Bool.not_eq_true] at he1
        by_cases he2 : (cp == qc && !esc) = true
        · simp only [StepOK, lexStep, hp, he1, he2, Bool.false_eq_true, if_false, if_pos]
          refine ⟨?_, ?_⟩
          · intro tk htk
            simp at htk
          · intro st1 hst1
            injection hst1 with h1
            subst h1
            exact ⟨hpp, hs1⟩
        · simp only [Bool.not_eq_true] at he2
          simp only [StepOK, lexStep, hp, he1, he2, Bool.false_eq_true, if_false]
          refine ⟨?_, ?_⟩
          · intro tk htk
            simp at htk
          · intro st1 hst1
            injection hst1 with h1
            subst h1
            exact ⟨hpp, hs1⟩

theorem startOKg_of_textStart {start : Option (Int × Int)} (buf : List Nat) :
    (match start with
     | none => buf = []
     | some (a, b) => 1 ≤ a ∧ 0 ≤ b ∧ (buf ≠ [] → 1 ≤ b) : Prop) →
    (match start with | none => True | some p => 1 ≤ p.1 ∧ 0 ≤ p.2 : Prop) := by
  rcases start with _ | ⟨a, b⟩
  · exact fun _ => trivial
  · exact fun hst => ⟨hst.1, hst.2.1⟩

theorem updStartP_text_flush {start : Option (Int × Int)} {buf : List Nat} {l c : Int}
    (hst : (match start with
            | none => buf = []
            | some (a, b) => 1 ≤ a ∧ 0 ≤ b ∧ (buf ≠ [] → 1 ≤ b) : Prop))
    (hl : 1 ≤ l) (_hc : 0 ≤ c) :
    1 ≤ (updStartP start l c).1 ∧
    (cpsToString buf ≠ "" → 1 ≤ (updStartP start l c).2) := by
  match start with
  | none =>
    refine ⟨hl, fun hne => ?_⟩
    exact absurd ((cpsToString_eq_empty_iff buf).mpr hst) hne
  | some (a, b) =>
    obtain ⟨ha, hb0, hbne⟩ := hst
    simp only [updStartP]
    by_cases hz : (a == 0 || b == 0) = true
    · rw [if_pos hz]
      refine ⟨hl, fun hne => ?_⟩
      simp only [Bool.or_eq_true, beq_iff_eq] at hz
      have hbuf : buf ≠ [] := fun he => hne ((cpsToString_eq_empty_iff buf).mpr he)
      have hb1 := hbne hbuf
      rcases hz with h | h
      · omega
      · omega
    · rw [if_neg hz]
      simp only [Bool.or_eq_true, beq_iff_eq, not_or] at hz
      exact ⟨ha, fun _ => by omega⟩

theorem stInv_text_push {start prev : Option (Int × Int)} {buf : List Nat}
    {s s1 : LexSrc} {cp : Nat} {l c : Int}
    (hst : StInv (.text start prev buf) s) (hs : SrcInv s)
    (hp : pullChar s = (.char cp l c, s1)) :
    StInv (.text (some (updStartP start l c)) (some (l, c)) (buf ++ [cp])) s1 ∧
    SrcInv s1 := by
  obtain ⟨hst1, hst2, hst3⟩ := hst
  obtain ⟨hl, hc, hs1, _, hbr, hnbr⟩ := pullChar_char_spec hs hp
  have hgen := startOKg_of_textStart buf hst1
  have hpp := updStartP_pos hgen hl hc
  refine ⟨⟨⟨hpp.1, le_trans zero_le_one hpp.2, fun _ => hpp.2⟩, ?_, ?_⟩, hs1⟩
  · by_cases hb : isLineBreak cp = true
    · rw [suffixNB_append_break buf hb, (hbr hb).1]
      simp
    · simp only [Bool.not_eq_true] at hb
      rw [suffixNB_append_nonbreak buf hb, (hnbr hb).1, (hnbr hb).2]
      push_cast
      omega
  · rw [List.getLast?_concat]
    exact ⟨hl, hc, fun hnb => ((hnbr hnb).1).symm⟩

theorem stepOK_text (opts : HTMLParserOptions) (start prev : Option (Int × Int))
    (buf : List Nat) (s : LexSrc) (hst : StInv (.text start prev buf) s)
    (hs : SrcInv s) : StepOK opts (.text start prev buf) s := by
  rcases hp : pullChar s with ⟨pr, s1⟩
  cases pr with
  | term t =>
    obtain ⟨hty, htl, htc, ht1⟩ := pullChar_term_spec hs hp
    by_cases he : (t.type == TokType.eof) = true
    · simp only [StepOK, lexStep, hp, he, if_pos]
      refine ⟨?_, ?_⟩
      · intro tk htk
        rcases List.mem_cons.mp htk with h | h
        · subst h
          have hcc : (0 : Int) ≤ t.c := by rw [htc]; exact hs.2.1
          have hft := updStartP_text_flush hst.1 ht1 hcc
          exact tokPosOK_text hft.1 hft.2
        · rcases List.mem_singleton.mp h with h2
          subst h2
          exact tokPosOK_term hs hp
      · intro st1 hst1
        exact absurd hst1 (by simp)
    · simp only [Bool.not_eq_true] at he
      simp only [StepOK, lexStep, hp, he, Bool.false_eq_true, if_false]
      refine ⟨?_, ?_⟩
      · intro tk htk
        rcases List.mem_singleton.mp htk with h
        subst h
        exact tokPosOK_term hs hp
      · intro st1 hst1
        exact absurd hst1 (by simp)
  | char cp l c =>
    obtain ⟨hl, hc, hs1, _, _, _⟩ := pullChar_char_spec hs hp
    have hgen := startOKg_of_textStart buf hst.1
    have hpp := updStartP_pos hgen hl hc
    by_cases h1 : isLegalLeadingTagNameChar cp = true
    · by_cases h2 : (decide (buf.length > 0) && (buf.getLast? == some 60)) = true
      · rcases hu : unreadChar s1 with ⟨o, s2⟩
        cases o with
        | some e =>
          simp only [StepOK, lexStep, hp, h1, h2, hu, if_pos]
          refine ⟨?_, ?_⟩
          · intro tk htk
            rcases List.mem_singleton.mp htk with h
            subst h
            exact unreadChar_some_spec hs1 hu
          · intro st1 hst1
            exact absurd hst1 (by simp)
        | none =>
          obtain ⟨hs2, _, _⟩ := unreadChar_none_spec hs1 hu
          simp only [StepOK, lexStep, hp, h1, h2, hu, if_pos]
          refine ⟨?_, ?_⟩
          · intro tk htk
            rcases List.mem_singleton.mp htk with h
            subst h
            exact tokPosOK_good hpp.1 hpp.2
          · intro st1 hst1
            injection hst1 with h9
            subst h9
            exact ⟨trivial, hs2⟩
      · simp only [Bool.not_eq_true] at h2
        by_cases h3 : (decide (buf.length ≥ 2) && (lastN 2 buf == [60, 47])) = true
        · rcases hu : unreadChar s1 with ⟨o, s2⟩
          cases o with
          | some e =>
            simp only [StepOK, lexStep, hp, h1, h2, Bool.false_eq_true, if_false,
              h3, hu, if_pos]
            refine ⟨?_, ?_⟩
            · intro tk htk
              rcases List.mem_singleton.mp htk with h
              subst h
              exact unreadChar_some_spec hs1 hu
            · intro st1 hst1
              exact absurd hst1 (by simp)
          | none =>
            obtain ⟨hs2, _, _⟩ := unreadChar_none_spec hs1 hu
            simp only [StepOK, lexStep, hp, h1, h2, Bool.false_eq_true, if_false,
              h3, hu, if_pos]
            refine ⟨?_, ?_⟩
            · intro tk htk
              rcases List.mem_singleton.mp htk with h
              subst h
              exact tokPosOK_good hpp.1 hpp.2
            · intro st1 hst1
              injection hst1 with h9
              subst h9
              exact ⟨trivial, hs2⟩
        · simp only [Bool.not_eq_true] at h3
          simp only [StepOK, lexStep, hp, h1, h2, h3, Bool.false_eq_true,
            if_false, if_pos]
          refine ⟨?_, ?_⟩
          · intro tk htk
            simp at htk
          · intro st1 hst1
            injection hst1 with h9
            subst h9
            exact stInv_text_push hst hs hp
    · simp only [Bool.not_eq_true] at h1
      by_cases h4 : (cp == 45) = true
      · by_cases h5 : (decide (buf.length ≥ 3) && (lastN 3 buf == [60, 33, 45])) = true
        · simp only [StepOK, lexStep, hp, h1, Bool.false_eq_true, if_false,
            h4, h5, if_pos]
          refine ⟨?_, ?_⟩
          · intro tk htk
            rcases List.mem_singleton.mp htk with h
            subst h
            exact tokPosOK_good hpp.1 hpp.2
          · intro st1 hst1
            injection hst1 with h9
            subst h9
            exact ⟨trivial, hs1⟩
        · simp only [Bool.not_eq_true] at h5
          simp only [StepOK, lexStep, hp, h1, h5, Bool.false_eq_true, if_false,
            h4, if_pos]
          refine ⟨?_, ?_⟩
          · intro tk htk
            simp at htk
          · intro st1 hst1
            injection hst1 with h9
            subst h9
            exact stInv_text_push hst hs hp
      · simp only [Bool.not_eq_true] at h4
        by_cases h6 : isWhitespace cp = true
        · by_cases h7 : (decide (buf.length ≥ 9) && doCharCodesMatchDocType (lastN 9 buf)) = true
          · have h7x := h7
            simp only [Bool.and_eq_true, decide_eq_true_eq, doCharCodesMatchDocType,
              beq_iff_eq] at h7x
            obtain ⟨hlen9, hdt9⟩ := h7x
            obtain ⟨hst1c, hst2c, hst3c⟩ := hst
            rw [getLast_docType hdt9] at hst3c
            simp only [StepOK, lexStep, hp, h1, h4, Bool.false_eq_true, if_false,
              h6, h7, if_pos]
            refine ⟨?_, ?_⟩
            · intro tk htk
              rcases List.mem_singleton.mp htk with h
              subst h
              exact tokPosOK_good hpp.1 hpp.2
            · intro st1 hst1
              injection hst1 with h9
              subst h9
              refine ⟨?_, hs1⟩
              rcases prev with _ | ⟨pl, pc⟩
              · exact ⟨by norm_num, by norm_num⟩
              · obtain ⟨hw1, hw2, hw3⟩ := hst3c
                have hpc : pc = s.col := hw3 (by decide)
                have h9c : (9 : Int) ≤ s.col :=
                  le_trans (by exact_mod_cast suffixNB_docType hdt9) hst2c
                refine ⟨hw1, ?_⟩
                show (1 : Int) ≤ pc - 8
                omega
          · simp only [Bool.not_eq_true] at h7
            simp only [StepOK, lexStep, hp, h1, h4, h7, Bool.false_eq_true,
              if_false, h6, if_pos]
            refine ⟨?_, ?_⟩
            · intro tk htk
              simp at htk
            · intro st1 hst1
              injection hst1 with h9
              subst h9
              exact stInv_text_push hst hs hp
        · simp only [Bool.not_eq_true] at h6
          simp only [StepOK, lexStep, hp, h1, h4, h6, Bool.false_eq_true, if_false]
          refine ⟨?_, ?_⟩
          · intro tk htk
            simp at htk
          · intro st1 hst1
            injection hst1 with h9
            subst h9
            exact stInv_text_push hst hs hp

theorem lexStep_inv (opts : HTMLParserOptions) (st : LexState) (s : LexSrc)
    (hst : StInv st s) (hs : SrcInv s) : StepOK opts st s := by
  cases st with
  | text start prev buf => exact stepOK_text opts start prev buf s hst hs
  | openName start buf => exact stepOK_openName opts start buf s hst hs
  | openAttrs tag prev => exact stepOK_openAttrs opts tag prev s hs
  | attrName tag ret start buf => exact stepOK_attrName opts tag ret start buf s hst hs
  | afterAttrName tag ret => exact stepOK_afterAttrName opts tag ret s hs
  | quotedVal tag ret q esc buf => exact stepOK_quotedVal opts tag ret q esc buf s hst hs
  | unquotedVal tag ret start buf => exact stepOK_unquotedVal opts tag ret start buf s hst hs
  | closeName start buf => exact stepOK_closeName opts start buf s hst hs
  | closeEnd => exact stepOK_closeEnd opts s hs
  | commentSt start buf => exact stepOK_commentSt opts start buf s hst hs
  | rawSt tag start q esc buf => exact stepOK_rawSt opts tag start q esc buf s hst hs
  | doctypeSt sl sc buf => exact stepOK_doctypeSt opts sl sc buf s hst hs

theorem lexRun_inv (opts : HTMLParserOptions) (fuel : Nat) :
    ∀ (st : LexState) (s : LexSrc), StInv st s → SrcInv s →
    ∀ t ∈ (lexRun opts fuel st s).1, TokPosOK t := by
  induction fuel with
  | zero =>
    intro st s _ _ t ht
    simp [lexRun] at ht
  | succ f ih =>
    intro st s hst hs t ht
    have hso := lexStep_inv opts st s hst hs
    rcases hls : lexStep opts st s with ⟨toks, s1, ost⟩
    simp only [StepOK, hls] at hso
    cases ost with
    | none =>
      simp only [lexRun, hls] at ht
      exact hso.1 t ht
    | some st1 =>
      simp only [lexRun, hls] at ht
      rcases List.mem_append.mp ht with h | h
      · exact hso.1 t h
      · have hnext := hso.2 st1 rfl
        exact ih st1 s1 hnext.1 hnext.2 t h

/-- C1 (amended): for every parser configuration, input and fuel, every token
the lexer emits starting from its initial text state carries `line ≥ 1`, and
carries `column ≥ 1` when it is an opening tagname, opening or self-closing
tag end, attribute name or value, comment, or doctype declaration, and also
when it is a TEXT_CONTENT token with non-empty value.  The original claim's
unconditional `column ≥ 1` fails for the EOF/ERROR terminators and the empty
end-of-input text flush (emitted at the current column counter, which starts
at 0) and is not asserted here for CLOSING_TAGNAME (whose column the
raw-content scan computes by subtraction). -/
theorem c1_amended_token_positions (opts : HTMLParserOptions) (wide : Bool)
    (input : List Nat) (fuel : Nat) :
    ∀ t ∈ (lexRun opts fuel (.text none none []) (initSrc wide input)).1,
      TokPosOK t := by
  have hs : SrcInv (initSrc wide input) :=
    ⟨le_refl 1, le_refl 0, le_refl 1, le_refl 0⟩
  exact lexRun_inv opts fuel (.text none none []) (initSrc wide input)
    (stInv_text_fresh _ hs) hs

theorem c1_amended_token_positions_witness :
    (⟨.eof, "", 1, 1⟩ : Tok) ∈
      (lexRun defaultOptions 68 (.text none none []) (initSrc false [97])).1 ∧
    TokPosOK ⟨.eof, "", 1, 1⟩ := by
  have hm : (⟨.eof, "", 1, 1⟩ : Tok) ∈
      (lexRun defaultOptions 68 (.text none none []) (initSrc false [97])).1 := by
    have he : (lexRun defaultOptions 68 (.text none none []) (initSrc false [97])).1 =
        [⟨.textContent, "a", 1, 1⟩, ⟨.eof, "", 1, 1⟩] := rfl
    rw [he]
    simp
  exact ⟨hm, c1_amended_token_positions defaultOptions false [97] 68 _ hm⟩
